import Mathlib

/-!
# Band mapping and band-level aggregation of `AudioUltraSLM_FD_F32`

A shallow embedding of `src/audioUltraSLM_FD_F32.h`.

Modelling conventions.

* `float` / `float32_t` values are exact rationals (`ℚ`).  In the band
  levels every sum and quotient is exact: rounding of the 32-bit arithmetic
  is not modelled there.  The frequency-to-bin conversion is given twice,
  from the same source expression: `freq_to_bin` in exact arithmetic and
  `freq_to_bin_f32` with every floating-point operation rounded to nearest,
  ties to even, in its IEEE 754 format (`roundF32`, `roundF64`).  The two
  differ by at most one bin (`freq_to_bin_f32_near`), and the order and range
  of the boundaries are the same for both (`bandBins_f32_sorted_in_range`).
* `int` values are unbounded integers (`ℤ`); the float-to-int conversion of
  C++ truncates toward zero (`toInt`), and `int / int` is `Int.tdiv`.  A
  conversion or subtraction that leaves the range of `int` is undefined in
  C++ and is not modelled.
* `std::vector` is `List`.  Reading `orig_mag` outside the part written by
  `arm_cmplx_mag_squared_f32` yields whatever the memory holds, which is the
  parameter `stack` of `processAudioFD`.  Vector accesses are in bounds in
  every state with a non-empty `bandBins` and one `total_level` entry per
  band (`total_level.length + 1 = bandBins.length`), the shape every
  `setBandFreqs` call with a non-empty list leaves; the theorems about
  `processAudioFD` assume that shape.
* The only non-finite values the code can create come out of `log10f`; its
  result is the three-way value `F32Log`.
* `processAudioFD` is instrumented: besides the new object state it returns
  the list of `Access`es made by line 113, one per executed loop body, and
  the final content of its local array `orig_mag`.
-/

namespace AudioUltraSLM_FD_F32

/-! ## Numeric primitives -/

/-- Conversion of a floating-point value to `int`: the fractional part is
discarded (truncation toward zero). -/
def toInt (q : ℚ) : ℤ := if 0 ≤ q then ⌊q⌋ else ⌈q⌉

/-- Value of a `float32_t` produced by `log10f` and then scaled: `nan`,
minus infinity, or the finite real number `c * log10 x` with `0 < x`. -/
inductive F32Log where
  | nan : F32Log
  | negInf : F32Log
  | fin (c : ℚ) (x : ℚ) : F32Log
  deriving DecidableEq

/-- The finite values (neither NaN nor an infinity). -/
def F32Log.isFinite : F32Log → Bool
  | .fin _ _ => true
  | _ => false

/-- Model of `log10f` (C library, IEC 60559 behaviour): a negative argument
gives NaN, zero gives minus infinity, a positive argument a finite value. -/
def log10f (x : ℚ) : F32Log :=
  if x < 0 then .nan else if x = 0 then .negInf else .fin 1 x

/-- Product `k * v` of a finite positive constant `k` with a `log10f` result
(`10.0f * log10f(level)` at line 119): NaN and minus infinity are absorbing. -/
def F32Log.scale (k : ℚ) : F32Log → F32Log
  | .nan => .nan
  | .negInf => .negInf
  | .fin c x => .fin (k * c) x

/-! ## Object state -/

/-- Data members of `AudioUltraSLM_FD_F32` (lines 76-83) together with
`sample_rate_Hz` of the base class `AudioFreqDomainBase_FD_F32`. -/
@[ext]
structure SLM where
  sample_rate_Hz : ℚ
  bandBins : List ℤ
  bandFreqs : List ℚ
  total_level : List ℚ
  total_level_dB : List F32Log
  NFFT : ℤ
  N_2 : ℤ
  Hz_per_bin : ℚ
  scaleFactor : ℚ

/-- `customSetup` (lines 49-55).  The base-class call `this->setup(settings,
_N_FFT)` belongs to the Tympan library; its effect is taken as parameters:
`rate` is the `sample_rate_Hz` it leaves in the object and `nfft` the FFT
size it returns. -/
def customSetup (s : SLM) (rate : ℚ) (nfft : ℤ) : SLM :=
  { s with
    sample_rate_Hz := rate
    NFFT := nfft
    N_2 := Int.tdiv nfft 2 + 1
    Hz_per_bin := rate / (nfft : ℚ)
    scaleFactor := 1 / (rate * (nfft : ℚ)) }

/-- `freq_to_bin` (lines 57-59): `return (int) freq / Hz_per_bin + 0.5;`,
in exact arithmetic.  The cast binds tighter than `/`, so `freq` is truncated
to an `int`, that `int` is divided by the `float` `Hz_per_bin` (a
floating-point division), `0.5` is added, and the sum is converted to the
`int` return type.  See `freq_to_bin_f32` for the rounded operations. -/
def freq_to_bin (s : SLM) (freq : ℚ) : ℤ :=
  toInt (((toInt freq : ℤ) : ℚ) / s.Hz_per_bin + 1 / 2)

/-- Nearest integer, ties to the even integer. -/
def roundHalfEven (y : ℚ) : ℤ :=
  if y - ⌊y⌋ < 1 / 2 then ⌊y⌋
  else if 1 / 2 < y - ⌊y⌋ then ⌊y⌋ + 1
  else if ⌊y⌋ % 2 = 0 then ⌊y⌋ else ⌊y⌋ + 1

/-- Exponent `z` of the spacing `2^z` of the binary floating-point numbers
with `p` significand bits and least normal exponent `emin` around `x`
(subnormal numbers have the spacing of the least normal binade). -/
def ulpExp (p : ℕ) (emin : ℤ) (x : ℚ) : ℤ :=
  max (Int.log 2 |x|) emin - ((p : ℤ) - 1)

/-- Rounding of `x` to the nearest floating-point number with `p` significand
bits and least normal exponent `emin`, ties to even (the IEEE 754 default).
Overflow to infinity is not modelled. -/
def roundBinary (p : ℕ) (emin : ℤ) (x : ℚ) : ℚ :=
  (roundHalfEven (x / (2 : ℚ) ^ ulpExp p emin x) : ℚ) * (2 : ℚ) ^ ulpExp p emin x

/-- Rounding to `float` (IEEE 754 binary32). -/
def roundF32 (x : ℚ) : ℚ := roundBinary 24 (-126) x

/-- Rounding to `double` (IEEE 754 binary64). -/
def roundF64 (x : ℚ) : ℚ := roundBinary 53 (-1022) x

/-- `freq_to_bin` (lines 57-59) with the floating-point operations rounded as
the code performs them: `(int) freq` is converted to `float` for the
division, the quotient by the `float` `Hz_per_bin` is a `float`, the sum with
the `double` constant `0.5` is a `double`, and the `double` is converted to
the `int` return type. -/
def freq_to_bin_f32 (s : SLM) (freq : ℚ) : ℤ :=
  toInt (roundF64 (roundF32 (roundF32 ((toInt freq : ℤ) : ℚ) / s.Hz_per_bin) + 1 / 2))

/-- `setBandFreqs` (lines 60-73).  `bandBins.back() = N_2 - 1` overwrites
the last element; `total_level` becomes `bandBins.size() - 1` zeros.  (For
an empty `inFreqs` the C++ code has undefined behaviour; the model then
leaves both vectors empty.) -/
def setBandFreqs (s : SLM) (inFreqs : List ℚ) : SLM :=
  let bins := inFreqs.map (freq_to_bin s)
  let bins := bins.set (bins.length - 1) (s.N_2 - 1)
  { s with
    bandBins := bins
    bandFreqs := inFreqs
    total_level := List.replicate (bins.length - 1) 0 }

/-! ## Per-block processing -/

/-- Real part of bin `bin` of an interleaved complex buffer: `src[2*bin]`. -/
def re (src : ℕ → ℚ) (bin : ℤ) : ℚ := src (2 * bin.toNat)

/-- Imaginary part of bin `bin` of an interleaved complex buffer: `src[2*bin+1]`. -/
def im (src : ℕ → ℚ) (bin : ℤ) : ℚ := src (2 * bin.toNat + 1)

/-- `arm_cmplx_mag_squared_f32(src, dst, numSamples)` of CMSIS-DSP seen from
the reader of `dst`: entry `ind` with `0 ≤ ind < numSamples` holds
`src[2*ind]^2 + src[2*ind+1]^2`; every other entry is untouched and still
holds `dst ind`. -/
def arm_cmplx_mag_squared_f32 (src : ℕ → ℚ) (dst : ℤ → ℚ) (numSamples : ℤ) : ℤ → ℚ :=
  fun ind =>
    if 0 ≤ ind ∧ ind < numSamples then
      re src ind ^ 2 + im src ind ^ 2
    else dst ind

/-- One evaluation of the statement at line 113: the band `indB`, the index
`ind` at which `orig_mag` is read and the divisor
`bandBins[indB+1] - bandBins[indB]` of the division. -/
structure Access where
  indB : ℕ
  ind : ℤ
  divisor : ℤ
  deriving DecidableEq

/-- Values taken by the loop variable of `for (int ind = lo; ind < hi; ind++)`. -/
def loopInds (lo hi : ℤ) : List ℤ :=
  (List.range (hi - lo).toNat).map (fun (k : ℕ) => lo + (k : ℤ))

/-- Body of the inner loop (line 113):
`total_level[indB] += orig_mag[ind] * scaleFactor / (bandBins[indB+1]-bandBins[indB])`. -/
def innerBody (bandBins : List ℤ) (scaleFactor : ℚ) (orig_mag : ℤ → ℚ) (indB : ℕ)
    (st : List ℚ × List Access) (ind : ℤ) : List ℚ × List Access :=
  let divisor := bandBins.getD (indB + 1) 0 - bandBins.getD indB 0
  (st.1.set indB (st.1.getD indB 0 + orig_mag ind * scaleFactor / (divisor : ℚ)),
   st.2 ++ [⟨indB, ind, divisor⟩])

/-- Inner loop (lines 111-115) for band `indB`. -/
def innerLoop (bandBins : List ℤ) (scaleFactor : ℚ) (orig_mag : ℤ → ℚ)
    (st : List ℚ × List Access) (indB : ℕ) : List ℚ × List Access :=
  (loopInds (bandBins.getD indB 0) (bandBins.getD (indB + 1) 0)).foldl
    (innerBody bandBins scaleFactor orig_mag indB) st

/-- Loop over the bands (lines 110-116), `indB = 0 .. bandBins.size()-2`. -/
def bandLoop (bandBins : List ℤ) (scaleFactor : ℚ) (orig_mag : ℤ → ℚ)
    (st : List ℚ × List Access) : List ℚ × List Access :=
  (List.range (bandBins.length - 1)).foldl (innerLoop bandBins scaleFactor orig_mag) st

/-- `processAudioFD` (lines 97-122), instrumented.  `stack` is the content
of the uninitialised array `orig_mag` (and of the memory around it) on
entry; `complex_2N_buffer` is the interleaved spectrum.  The argument
`NFFT` of the C++ method is not used by its body.  The result is the new
object state, the accesses made by line 113 in execution order, and the
content of the local array `orig_mag` when the method returns. -/
def processAudioFD_run (s : SLM) (stack : ℤ → ℚ) (complex_2N_buffer : ℕ → ℚ) :
    SLM × List Access × (ℤ → ℚ) :=
  let orig_mag := arm_cmplx_mag_squared_f32 complex_2N_buffer stack (s.N_2 - 1)
  let zeroed := List.replicate s.total_level.length (0 : ℚ)
  let r := bandLoop s.bandBins s.scaleFactor orig_mag (zeroed, [])
  ({ s with
     total_level := r.1
     total_level_dB := r.1.map (fun level => (log10f level).scale 10) },
   r.2, orig_mag)

/-- State left by `processAudioFD`. -/
def processAudioFD (s : SLM) (stack : ℤ → ℚ) (complex_2N_buffer : ℕ → ℚ) : SLM :=
  (processAudioFD_run s stack complex_2N_buffer).1

/-- Accesses to `orig_mag` (with the divisor used) made by `processAudioFD`. -/
def processAudioFD_accesses (s : SLM) (stack : ℤ → ℚ) (complex_2N_buffer : ℕ → ℚ) :
    List Access :=
  (processAudioFD_run s stack complex_2N_buffer).2.1

/-- Content of the local array `orig_mag` (line 102), and of the memory
around it, when `processAudioFD` returns: the array is written by line 103
only. -/
def processAudioFD_orig_mag (s : SLM) (stack : ℤ → ℚ) (complex_2N_buffer : ℕ → ℚ) :
    ℤ → ℚ :=
  (processAudioFD_run s stack complex_2N_buffer).2.2

/-- The term that line 113 adds to `total_level[indB]` when the loop
variable is `ind`. -/
def bandTerm (bandBins : List ℤ) (scaleFactor : ℚ) (orig_mag : ℤ → ℚ) (indB : ℕ) (ind : ℤ) : ℚ :=
  orig_mag ind * scaleFactor /
    ((bandBins.getD (indB + 1) 0 - bandBins.getD indB 0 : ℤ) : ℚ)

/-- Sum of the terms of band `indB` over its loop indices, in loop order. -/
def bandSum (bandBins : List ℤ) (scaleFactor : ℚ) (orig_mag : ℤ → ℚ) (indB : ℕ) : ℚ :=
  ((loopInds (bandBins.getD indB 0) (bandBins.getD (indB + 1) 0)).map
    (bandTerm bandBins scaleFactor orig_mag indB)).sum

/-- Accesses of band `indB`, in loop order. -/
def bandAccesses (bandBins : List ℤ) (indB : ℕ) : List Access :=
  (loopInds (bandBins.getD indB 0) (bandBins.getD (indB + 1) 0)).map
    (fun ind => ⟨indB, ind, bandBins.getD (indB + 1) 0 - bandBins.getD indB 0⟩)

/-! ## Call sequences -/

/-- A call of one of the two public methods that change the band state. -/
inductive Call where
  | setBandFreqs (inFreqs : List ℚ) : Call
  | processAudioFD (stack : ℤ → ℚ) (complex_2N_buffer : ℕ → ℚ) : Call

/-- A call the C++ code defines: `setBandFreqs` needs a non-empty list. -/
def Call.Defined : Call → Prop
  | .setBandFreqs inFreqs => inFreqs ≠ []
  | .processAudioFD _ _ => True

/-- Effect of one call on the object. -/
def Call.apply (s : SLM) : Call → SLM
  | .setBandFreqs inFreqs => AudioUltraSLM_FD_F32.setBandFreqs s inFreqs
  | .processAudioFD stack buf => AudioUltraSLM_FD_F32.processAudioFD s stack buf

/-- Effect of a sequence of calls, first call first. -/
def runCalls (s : SLM) (calls : List Call) : SLM := calls.foldl Call.apply s

/-! ## Scenario of the specification: 44100 Hz, `NFFT = 512` -/

/-- An object before `customSetup`: all members empty or zero. -/
def init : SLM :=
  { sample_rate_Hz := 0, bandBins := [], bandFreqs := [], total_level := [],
    total_level_dB := [], NFFT := 0, N_2 := 0, Hz_per_bin := 0, scaleFactor := 0 }

/-- The object after `customSetup` with sample rate 44100 Hz and `NFFT = 512`. -/
def slm512 : SLM := customSetup init 44100 512

/-- The object after `customSetup` with sample rate 44100 Hz and `NFFT = 4096`. -/
def slm4096 : SLM := customSetup init 44100 4096

/-- The object `slm512` after `setBandFreqs` with breakpoints `[0, 5000, 10000]`. -/
def slmBands : SLM := setBandFreqs slm512 [0, 5000, 10000]

/-- The all-zero spectrum. -/
def zeroSpectrum : ℕ → ℚ := fun _ => 0

/-- A spectrum with value `3 + 4i` in bin 10 and zero elsewhere. -/
def toneSpectrum : ℕ → ℚ := fun k => if k = 20 then 3 else if k = 21 then 4 else 0

/-- The object `slm512` after `setBandFreqs` with a repeated breakpoint,
`[0, 5000, 5000, 10000]`: band 1 has zero width. -/
def slmFlat : SLM := setBandFreqs slm512 [0, 5000, 5000, 10000]

/-- The spectrum `toneSpectrum` with the real part of the Nyquist bin (bin
256, buffer entry 512) changed to 5. -/
def toneNyquist : ℕ → ℚ :=
  fun k => if k = 20 then 3 else if k = 21 then 4 else if k = 512 then 5 else 0

/-- Memory content used for the uninitialised part of `orig_mag` in the examples. -/
def stack7 : ℤ → ℚ := fun _ => 7

/-- Another memory content, different from `stack7` everywhere. -/
def stack9 : ℤ → ℚ := fun _ => 9

/-! ## Loop lemmas -/

theorem foldl_innerBody_snd (bandBins : List ℤ) (sc : ℚ) (mag : ℤ → ℚ) (indB : ℕ)
    (l : List ℤ) (st : List ℚ × List Access) :
    (l.foldl (innerBody bandBins sc mag indB) st).2 =
      st.2 ++ l.map (fun ind =>
        ⟨indB, ind, bandBins.getD (indB + 1) 0 - bandBins.getD indB 0⟩) := by
  induction l generalizing st with
  | nil => simp
  | cons a l ih => simp [List.foldl_cons, ih, innerBody]

theorem foldl_innerBody_length (bandBins : List ℤ) (sc : ℚ) (mag : ℤ → ℚ) (indB : ℕ)
    (l : List ℤ) (st : List ℚ × List Access) :
    (l.foldl (innerBody bandBins sc mag indB) st).1.length = st.1.length := by
  induction l generalizing st with
  | nil => simp
  | cons a l ih => simp [List.foldl_cons, ih, innerBody]

theorem foldl_innerBody_getElem? (bandBins : List ℤ) (sc : ℚ) (mag : ℤ → ℚ) (indB : ℕ)
    (l : List ℤ) (st : List ℚ × List Access) (j : ℕ) :
    (l.foldl (innerBody bandBins sc mag indB) st).1[j]? =
      if j = indB then
        st.1[j]?.map (fun v => v + (l.map (bandTerm bandBins sc mag indB)).sum)
      else st.1[j]? := by
  induction l generalizing st with
  | nil => by_cases h : j = indB <;> simp [h]
  | cons a l ih =>
    rw [List.foldl_cons, ih]
    by_cases h : j = indB
    · subst h
      simp only [if_true, innerBody, List.getElem?_set, List.map_cons, List.sum_cons,
        List.getD_eq_getElem?_getD]
      by_cases hj : j < st.1.length
      · simp [hj, bandTerm, List.getD_eq_getElem?_getD, add_assoc]
      · simp [hj, List.getElem?_eq_none (Nat.le_of_not_lt hj)]
    · have h' : ¬ indB = j := fun e => h e.symm
      simp [h, h', innerBody, List.getElem?_set]

theorem innerLoop_snd (bandBins : List ℤ) (sc : ℚ) (mag : ℤ → ℚ)
    (st : List ℚ × List Access) (indB : ℕ) :
    (innerLoop bandBins sc mag st indB).2 = st.2 ++ bandAccesses bandBins indB := by
  simp [innerLoop, bandAccesses, foldl_innerBody_snd]

theorem innerLoop_length (bandBins : List ℤ) (sc : ℚ) (mag : ℤ → ℚ)
    (st : List ℚ × List Access) (indB : ℕ) :
    (innerLoop bandBins sc mag st indB).1.length = st.1.length := by
  simp [innerLoop, foldl_innerBody_length]

theorem innerLoop_getElem? (bandBins : List ℤ) (sc : ℚ) (mag : ℤ → ℚ)
    (st : List ℚ × List Access) (indB j : ℕ) :
    (innerLoop bandBins sc mag st indB).1[j]? =
      if j = indB then st.1[j]?.map (fun v => v + bandSum bandBins sc mag indB)
      else st.1[j]? := by
  simp [innerLoop, bandSum, foldl_innerBody_getElem?]

theorem foldl_innerLoop_snd (bandBins : List ℤ) (sc : ℚ) (mag : ℤ → ℚ) (n : ℕ)
    (st : List ℚ × List Access) :
    ((List.range n).foldl (innerLoop bandBins sc mag) st).2 =
      st.2 ++ (List.range n).flatMap (bandAccesses bandBins) := by
  induction n with
  | zero => simp
  | succ n ih =>
    rw [List.range_succ, List.foldl_append, List.foldl_cons, List.foldl_nil,
      innerLoop_snd, ih]
    simp [List.flatMap_append]

theorem foldl_innerLoop_length (bandBins : List ℤ) (sc : ℚ) (mag : ℤ → ℚ) (n : ℕ)
    (st : List ℚ × List Access) :
    ((List.range n).foldl (innerLoop bandBins sc mag) st).1.length = st.1.length := by
  induction n with
  | zero => simp
  | succ n ih =>
    rw [List.range_succ, List.foldl_append, List.foldl_cons, List.foldl_nil,
      innerLoop_length, ih]

theorem foldl_innerLoop_getElem? (bandBins : List ℤ) (sc : ℚ) (mag : ℤ → ℚ) (n : ℕ)
    (st : List ℚ × List Access) (j : ℕ) :
    ((List.range n).foldl (innerLoop bandBins sc mag) st).1[j]? =
      if j < n then st.1[j]?.map (fun v => v + bandSum bandBins sc mag j)
      else st.1[j]? := by
  induction n with
  | zero => simp
  | succ n ih =>
    rw [List.range_succ, List.foldl_append, List.foldl_cons, List.foldl_nil,
      innerLoop_getElem?, ih]
    by_cases h : j = n
    · subst h; simp
    · by_cases h2 : j < n
      · have h3 : j < n + 1 := by omega
        simp [h, h2, h3]
      · have h3 : ¬ j < n + 1 := by omega
        simp [h, h2, h3]

/-! ## Closed forms for `processAudioFD` -/

theorem processAudioFD_total_level_length (s : SLM) (stack : ℤ → ℚ) (buf : ℕ → ℚ) :
    (processAudioFD s stack buf).total_level.length = s.total_level.length := by
  simp [processAudioFD, processAudioFD_run, bandLoop, foldl_innerLoop_length]

theorem processAudioFD_total_level_dB_length (s : SLM) (stack : ℤ → ℚ) (buf : ℕ → ℚ) :
    (processAudioFD s stack buf).total_level_dB.length = s.total_level.length := by
  simp [processAudioFD, processAudioFD_run, bandLoop, foldl_innerLoop_length]

theorem processAudioFD_total_level_getElem? (s : SLM) (stack : ℤ → ℚ) (buf : ℕ → ℚ)
    (j : ℕ) :
    (processAudioFD s stack buf).total_level[j]? =
      if j < s.total_level.length then
        some (if j < s.bandBins.length - 1 then
          bandSum s.bandBins s.scaleFactor
            (arm_cmplx_mag_squared_f32 buf stack (s.N_2 - 1)) j
          else 0)
      else none := by
  simp only [processAudioFD, processAudioFD_run, bandLoop, foldl_innerLoop_getElem?,
    List.getElem?_replicate]
  by_cases h1 : j < s.total_level.length <;> by_cases h2 : j < s.bandBins.length - 1 <;>
    simp [h1, h2]

theorem processAudioFD_total_level_dB_eq (s : SLM) (stack : ℤ → ℚ) (buf : ℕ → ℚ) :
    (processAudioFD s stack buf).total_level_dB =
      (processAudioFD s stack buf).total_level.map (fun level => (log10f level).scale 10) := by
  simp [processAudioFD, processAudioFD_run]

theorem processAudioFD_accesses_eq (s : SLM) (stack : ℤ → ℚ) (buf : ℕ → ℚ) :
    processAudioFD_accesses s stack buf =
      (List.range (s.bandBins.length - 1)).flatMap (bandAccesses s.bandBins) := by
  simp [processAudioFD_accesses, processAudioFD_run, bandLoop, foldl_innerLoop_snd]

theorem mem_loopInds (lo hi ind : ℤ) : ind ∈ loopInds lo hi ↔ lo ≤ ind ∧ ind < hi := by
  simp only [loopInds, List.mem_map, List.mem_range]
  constructor
  · rintro ⟨k, hk, rfl⟩
    omega
  · rintro ⟨h1, h2⟩
    exact ⟨(ind - lo).toNat, by omega, by omega⟩

theorem mem_processAudioFD_accesses (s : SLM) (stack : ℤ → ℚ) (buf : ℕ → ℚ) (a : Access) :
    a ∈ processAudioFD_accesses s stack buf ↔
      a.indB + 1 < s.bandBins.length ∧
      s.bandBins.getD a.indB 0 ≤ a.ind ∧ a.ind < s.bandBins.getD (a.indB + 1) 0 ∧
      a.divisor = s.bandBins.getD (a.indB + 1) 0 - s.bandBins.getD a.indB 0 := by
  rw [processAudioFD_accesses_eq]
  simp only [List.mem_flatMap, List.mem_range, bandAccesses, List.mem_map, mem_loopInds]
  constructor
  · rintro ⟨i, hi, ind, ⟨h1, h2⟩, rfl⟩
    exact ⟨by simp only; omega, h1, h2, rfl⟩
  · rintro ⟨h0, h1, h2, h3⟩
    refine ⟨a.indB, by omega, a.ind, ⟨h1, h2⟩, ?_⟩
    cases a
    simp_all

theorem sum_range_eq_sum_Ico (f : ℤ → ℚ) (lo : ℤ) (n : ℕ) :
    ((List.range n).map (fun (k : ℕ) => f (lo + (k : ℤ)))).sum =
      ∑ bin ∈ Finset.Ico lo (lo + (n : ℤ)), f bin := by
  induction n with
  | zero => simp
  | succ n ih =>
    have hIco : Finset.Ico lo (lo + ((n + 1 : ℕ) : ℤ)) =
        insert (lo + (n : ℤ)) (Finset.Ico lo (lo + (n : ℤ))) := by
      ext a
      simp only [Finset.mem_Ico, Finset.mem_insert]
      omega
    rw [List.sum_range_succ, ih, hIco, Finset.sum_insert (by simp), add_comm]

theorem sum_loopInds (f : ℤ → ℚ) (lo hi : ℤ) :
    ((loopInds lo hi).map f).sum = ∑ bin ∈ Finset.Ico lo hi, f bin := by
  have h := sum_range_eq_sum_Ico f lo (hi - lo).toNat
  simp only [loopInds, List.map_map]
  by_cases hle : lo ≤ hi
  · have e : lo + (((hi - lo).toNat : ℕ) : ℤ) = hi := by omega
    rw [e] at h
    exact h
  · have e : (hi - lo).toNat = 0 := by omega
    have e2 : Finset.Ico lo hi = ∅ := Finset.Ico_eq_empty (fun hh => hle (le_of_lt hh))
    simp [e, e2]

/-! ## Facts about `setBandFreqs` and `customSetup` -/

theorem setBandFreqs_bandBins_length (s : SLM) (fs : List ℚ) :
    (setBandFreqs s fs).bandBins.length = fs.length := by
  simp [setBandFreqs]

theorem setBandFreqs_total_level (s : SLM) (fs : List ℚ) :
    (setBandFreqs s fs).total_level = List.replicate (fs.length - 1) 0 := by
  simp [setBandFreqs]

theorem setBandFreqs_inv (s : SLM) (fs : List ℚ) :
    (setBandFreqs s fs).total_level.length = (setBandFreqs s fs).bandBins.length - 1 := by
  simp [setBandFreqs]

theorem processAudioFD_bandBins (s : SLM) (stack : ℤ → ℚ) (buf : ℕ → ℚ) :
    (processAudioFD s stack buf).bandBins = s.bandBins := rfl

theorem slmBands_bandBins : slmBands.bandBins = [0, 58, 256] := by
  norm_num [slmBands, setBandFreqs, freq_to_bin, slm512, customSetup, init, toInt]
  rfl

theorem slmFlat_bandBins : slmFlat.bandBins = [0, 58, 58, 256] := by
  norm_num [slmFlat, setBandFreqs, freq_to_bin, slm512, customSetup, init, toInt]
  rfl

/-! ## Band levels (C1) -/

/-- C1: in a state whose `N_2` and `scaleFactor` are those left by
`customSetup` (`N_2 = NFFT/2 + 1`, `scaleFactor = 1/(sample_rate_Hz*NFFT)`) and
whose `total_level` has one entry per band, for every spectrum and every band
`i` with `0 ≤ bandBins[i] < bandBins[i+1] ≤ NFFT/2`, `processAudioFD` leaves
`total_level[i]` equal to the exact sum over `bin` in
`[bandBins[i], bandBins[i+1])` of
`(re[bin]^2 + im[bin]^2) * scaleFactor / (bandBins[i+1] - bandBins[i])`,
which is `scaleFactor` times the mean magnitude-squared of the band.  (The
strict inequality `_h1` is not used: for an empty band both sides are 0.) -/
theorem processAudioFD_band_level (s : SLM) (stack : ℤ → ℚ) (buf : ℕ → ℚ)
    (i : ℕ)
    (hN2 : s.N_2 = Int.tdiv s.NFFT 2 + 1)
    (hscale : s.scaleFactor = 1 / (s.sample_rate_Hz * (s.NFFT : ℚ)))
    (hlen : s.total_level.length + 1 = s.bandBins.length)
    (hi : i + 1 < s.bandBins.length)
    (h0 : 0 ≤ s.bandBins.getD i 0)
    (_h1 : s.bandBins.getD i 0 < s.bandBins.getD (i + 1) 0)
    (h2 : s.bandBins.getD (i + 1) 0 ≤ Int.tdiv s.NFFT 2) :
    (processAudioFD s stack buf).total_level[i]? =
      some (∑ bin ∈ Finset.Ico (s.bandBins.getD i 0) (s.bandBins.getD (i + 1) 0),
        (re buf bin ^ 2 + im buf bin ^ 2) * (1 / (s.sample_rate_Hz * (s.NFFT : ℚ))) /
          ((s.bandBins.getD (i + 1) 0 - s.bandBins.getD i 0 : ℤ) : ℚ)) ∧
    (processAudioFD s stack buf).total_level[i]? =
      some ((1 / (s.sample_rate_Hz * (s.NFFT : ℚ))) *
        ((∑ bin ∈ Finset.Ico (s.bandBins.getD i 0) (s.bandBins.getD (i + 1) 0),
            (re buf bin ^ 2 + im buf bin ^ 2)) /
          ((s.bandBins.getD (i + 1) 0 - s.bandBins.getD i 0 : ℤ) : ℚ))) := by
  have hi1 : i < s.total_level.length := by omega
  have hi2 : i < s.bandBins.length - 1 := by omega
  have key : (processAudioFD s stack buf).total_level[i]? =
      some (∑ bin ∈ Finset.Ico (s.bandBins.getD i 0) (s.bandBins.getD (i + 1) 0),
        (re buf bin ^ 2 + im buf bin ^ 2) * (1 / (s.sample_rate_Hz * (s.NFFT : ℚ))) /
          ((s.bandBins.getD (i + 1) 0 - s.bandBins.getD i 0 : ℤ) : ℚ)) := by
    rw [processAudioFD_total_level_getElem?, if_pos hi1, if_pos hi2, bandSum, sum_loopInds]
    congr 1
    apply Finset.sum_congr rfl
    intro bin hbin
    rw [Finset.mem_Ico] at hbin
    have hr : 0 ≤ bin ∧ bin < s.N_2 - 1 := by omega
    simp only [bandTerm, arm_cmplx_mag_squared_f32, if_pos hr, hscale]
  refine ⟨key, ?_⟩
  rw [key]
  congr 1
  rw [Finset.sum_div, Finset.mul_sum]
  apply Finset.sum_congr rfl
  intro bin _
  ring

/-- Witness of C1: band 0 (bins 0 to 57) of the scenario of the
specification, for a spectrum with a single tone in bin 10. -/
theorem processAudioFD_band_level_witness :
    (processAudioFD slmBands stack7 toneSpectrum).total_level[0]? =
      some (∑ bin ∈ Finset.Ico (slmBands.bandBins.getD 0 0) (slmBands.bandBins.getD (0 + 1) 0),
        (re toneSpectrum bin ^ 2 + im toneSpectrum bin ^ 2) *
          (1 / (slmBands.sample_rate_Hz * (slmBands.NFFT : ℚ))) /
          ((slmBands.bandBins.getD (0 + 1) 0 - slmBands.bandBins.getD 0 0 : ℤ) : ℚ)) :=
  (processAudioFD_band_level slmBands stack7 toneSpectrum 0 rfl rfl (by rfl)
    (by rw [slmBands_bandBins]; decide)
    (by rw [slmBands_bandBins]; decide)
    (by rw [slmBands_bandBins]; decide)
    (by rw [slmBands_bandBins]; decide)).1

/-! ## Band mapping (C2, C9) -/

/-- C2: for every non-empty list of frequencies, whatever their values or
order, in a state whose `N_2` is the one `customSetup` leaves
(`N_2 = NFFT/2 + 1`), `setBandFreqs` produces a `bandBins` with exactly as
many entries as the list, and its last entry is `NFFT/2`, which is
`N_2 - 1`. -/
theorem setBandFreqs_length_last (s : SLM) (fs : List ℚ)
    (hN2 : s.N_2 = Int.tdiv s.NFFT 2 + 1) (hne : fs ≠ []) :
    (setBandFreqs s fs).bandBins.length = fs.length ∧
    (setBandFreqs s fs).bandBins.getLast? = some (Int.tdiv s.NFFT 2) ∧
    Int.tdiv s.NFFT 2 = s.N_2 - 1 := by
  have hpos : 0 < fs.length := List.length_pos.mpr hne
  refine ⟨setBandFreqs_bandBins_length s fs, ?_, by omega⟩
  rw [List.getLast?_eq_getElem?]
  simp only [setBandFreqs, List.length_set, List.length_map, List.getElem?_set]
  simp only [if_true]
  rw [if_pos (by omega)]
  congr 1
  omega

/-- Witness of C2 at the scenario of the specification: breakpoints
`[0, 5000, 10000]` at 44100 Hz and `NFFT = 512`. -/
theorem setBandFreqs_length_last_witness :
    (setBandFreqs slm512 [0, 5000, 10000]).bandBins.length = 3 ∧
    (setBandFreqs slm512 [0, 5000, 10000]).bandBins.getLast? = some (Int.tdiv 512 2) ∧
    Int.tdiv 512 2 = slm512.N_2 - 1 :=
  setBandFreqs_length_last slm512 [0, 5000, 10000] rfl (by simp)

/-- C9: for every state and every non-empty list of `n` frequencies,
`setBandFreqs` sets `total_level` to exactly `n - 1` zeros and leaves
`total_level_dB`, `NFFT`, `N_2`, `Hz_per_bin` and `scaleFactor` unchanged. -/
theorem setBandFreqs_frame (s : SLM) (fs : List ℚ) (_hne : fs ≠ []) :
    (setBandFreqs s fs).total_level = List.replicate (fs.length - 1) 0 ∧
    (setBandFreqs s fs).total_level_dB = s.total_level_dB ∧
    (setBandFreqs s fs).NFFT = s.NFFT ∧
    (setBandFreqs s fs).N_2 = s.N_2 ∧
    (setBandFreqs s fs).Hz_per_bin = s.Hz_per_bin ∧
    (setBandFreqs s fs).scaleFactor = s.scaleFactor :=
  ⟨setBandFreqs_total_level s fs, rfl, rfl, rfl, rfl, rfl⟩

/-- Witness of C9: re-configuring, with three breakpoints, an object that
already holds the two decibel levels of a processed block. -/
theorem setBandFreqs_frame_witness :
    (setBandFreqs (processAudioFD slmBands stack7 toneSpectrum) [0, 1000, 2000]).total_level
      = List.replicate 2 0 ∧
    (setBandFreqs (processAudioFD slmBands stack7 toneSpectrum) [0, 1000, 2000]).total_level_dB
      = (processAudioFD slmBands stack7 toneSpectrum).total_level_dB ∧
    (setBandFreqs (processAudioFD slmBands stack7 toneSpectrum) [0, 1000, 2000]).NFFT
      = (processAudioFD slmBands stack7 toneSpectrum).NFFT ∧
    (setBandFreqs (processAudioFD slmBands stack7 toneSpectrum) [0, 1000, 2000]).N_2
      = (processAudioFD slmBands stack7 toneSpectrum).N_2 ∧
    (setBandFreqs (processAudioFD slmBands stack7 toneSpectrum) [0, 1000, 2000]).Hz_per_bin
      = (processAudioFD slmBands stack7 toneSpectrum).Hz_per_bin ∧
    (setBandFreqs (processAudioFD slmBands stack7 toneSpectrum) [0, 1000, 2000]).scaleFactor
      = (processAudioFD slmBands stack7 toneSpectrum).scaleFactor :=
  setBandFreqs_frame (processAudioFD slmBands stack7 toneSpectrum) [0, 1000, 2000] (by simp)

/-! ## Shapes of the level vectors (C7) -/

theorem setBandFreqs_shape (s : SLM) (fs : List ℚ) (hne : fs ≠ []) :
    (setBandFreqs s fs).total_level.length + 1 = (setBandFreqs s fs).bandBins.length := by
  have hpos : 0 < fs.length := List.length_pos.mpr hne
  simp only [setBandFreqs, List.length_replicate, List.length_set, List.length_map]
  omega

theorem processAudioFD_shape (s : SLM) (stack : ℤ → ℚ) (buf : ℕ → ℚ)
    (h : s.total_level.length + 1 = s.bandBins.length) :
    (processAudioFD s stack buf).total_level.length + 1 =
      (processAudioFD s stack buf).bandBins.length := by
  rw [processAudioFD_total_level_length, processAudioFD_bandBins]
  exact h

theorem runCalls_shape (calls : List Call) (s : SLM)
    (h : s.total_level.length + 1 = s.bandBins.length)
    (hcalls : ∀ c ∈ calls, c.Defined) :
    (runCalls s calls).total_level.length + 1 = (runCalls s calls).bandBins.length := by
  induction calls generalizing s with
  | nil => exact h
  | cons c calls ih =>
    have hc : c.Defined := hcalls c (List.mem_cons_self c calls)
    have hrest : ∀ c' ∈ calls, c'.Defined := fun c' hc' =>
      hcalls c' (List.mem_cons_of_mem c hc')
    show (runCalls (Call.apply s c) calls).total_level.length + 1 =
      (runCalls (Call.apply s c) calls).bandBins.length
    apply ih _ _ hrest
    cases c with
    | setBandFreqs inFreqs => exact setBandFreqs_shape s inFreqs hc
    | processAudioFD stack buf => exact processAudioFD_shape s stack buf h

theorem runCalls_append (s : SLM) (xs ys : List Call) :
    runCalls s (xs ++ ys) = runCalls (runCalls s xs) ys := by
  simp [runCalls, List.foldl_append]

/-- C7: in every state reached by a `setBandFreqs` call with a non-empty
frequency list followed by any sequence of `processAudioFD` and non-empty
`setBandFreqs` calls that ends with `processAudioFD`, `total_level` and
`total_level_dB` both have `len(bandBins) - 1` entries (stated without
truncated subtraction: their length plus one is `len(bandBins)`). -/
theorem lengths_after_processAudioFD (s0 : SLM) (fs : List ℚ) (hne : fs ≠ [])
    (calls : List Call) (hcalls : ∀ c ∈ calls, c.Defined)
    (stack : ℤ → ℚ) (buf : ℕ → ℚ) :
    (runCalls (setBandFreqs s0 fs)
        (calls ++ [Call.processAudioFD stack buf])).total_level.length + 1 =
      (runCalls (setBandFreqs s0 fs)
        (calls ++ [Call.processAudioFD stack buf])).bandBins.length ∧
    (runCalls (setBandFreqs s0 fs)
        (calls ++ [Call.processAudioFD stack buf])).total_level_dB.length + 1 =
      (runCalls (setBandFreqs s0 fs)
        (calls ++ [Call.processAudioFD stack buf])).bandBins.length := by
  have h := runCalls_shape calls (setBandFreqs s0 fs) (setBandFreqs_shape s0 fs hne) hcalls
  rw [runCalls_append]
  show (processAudioFD (runCalls (setBandFreqs s0 fs) calls) stack buf).total_level.length + 1
      = (processAudioFD (runCalls (setBandFreqs s0 fs) calls) stack buf).bandBins.length ∧
    (processAudioFD (runCalls (setBandFreqs s0 fs) calls) stack buf).total_level_dB.length + 1
      = (processAudioFD (runCalls (setBandFreqs s0 fs) calls) stack buf).bandBins.length
  rw [processAudioFD_total_level_length, processAudioFD_total_level_dB_length,
    processAudioFD_bandBins]
  exact ⟨h, h⟩

/-- Witness of C7: configure three breakpoints, process a block, re-configure
with two breakpoints, process two more blocks. -/
theorem lengths_after_processAudioFD_witness :
    (runCalls (setBandFreqs slm512 [0, 5000, 10000])
        ([Call.processAudioFD stack7 toneSpectrum, Call.setBandFreqs [0, 20000],
          Call.processAudioFD stack7 zeroSpectrum] ++
         [Call.processAudioFD stack7 toneSpectrum])).total_level.length + 1 =
      (runCalls (setBandFreqs slm512 [0, 5000, 10000])
        ([Call.processAudioFD stack7 toneSpectrum, Call.setBandFreqs [0, 20000],
          Call.processAudioFD stack7 zeroSpectrum] ++
         [Call.processAudioFD stack7 toneSpectrum])).bandBins.length ∧
    (runCalls (setBandFreqs slm512 [0, 5000, 10000])
        ([Call.processAudioFD stack7 toneSpectrum, Call.setBandFreqs [0, 20000],
          Call.processAudioFD stack7 zeroSpectrum] ++
         [Call.processAudioFD stack7 toneSpectrum])).total_level_dB.length + 1 =
      (runCalls (setBandFreqs slm512 [0, 5000, 10000])
        ([Call.processAudioFD stack7 toneSpectrum, Call.setBandFreqs [0, 20000],
          Call.processAudioFD stack7 zeroSpectrum] ++
         [Call.processAudioFD stack7 toneSpectrum])).bandBins.length :=
  lengths_after_processAudioFD slm512 [0, 5000, 10000] (by simp)
    [Call.processAudioFD stack7 toneSpectrum, Call.setBandFreqs [0, 20000],
      Call.processAudioFD stack7 zeroSpectrum]
    (by simp [Call.Defined]) stack7 toneSpectrum

/-! ## Frequency to bin conversion (C3) -/

theorem toInt_of_nonneg (q : ℚ) (hq : 0 ≤ q) : toInt q = ⌊q⌋ := by
  simp [toInt, hq]

theorem toInt_mono (a b : ℚ) (hab : a ≤ b) : toInt a ≤ toInt b := by
  unfold toInt
  by_cases ha : 0 ≤ a
  · have hb : 0 ≤ b := le_trans ha hab
    rw [if_pos ha, if_pos hb]
    exact Int.floor_mono hab
  · rw [if_neg ha]
    by_cases hb : 0 ≤ b
    · rw [if_pos hb]
      have h1 : ⌈a⌉ ≤ 0 := Int.ceil_le.mpr (by push_cast; exact le_of_lt (not_le.mp ha))
      have h2 : (0 : ℤ) ≤ ⌊b⌋ := Int.floor_nonneg.mpr hb
      exact le_trans h1 h2
    · rw [if_neg hb]
      exact Int.ceil_mono hab

theorem freq_to_bin_of_nonneg (s : SLM) (f : ℚ) (hf : 0 ≤ f) (hHz : 0 < s.Hz_per_bin) :
    freq_to_bin s f = ⌊((⌊f⌋ : ℤ) : ℚ) / s.Hz_per_bin + 1 / 2⌋ := by
  have h1 : (0 : ℚ) ≤ ((⌊f⌋ : ℤ) : ℚ) := by exact_mod_cast Int.floor_nonneg.mpr hf
  have h2 : (0 : ℚ) ≤ ((⌊f⌋ : ℤ) : ℚ) / s.Hz_per_bin + 1 / 2 := by positivity
  rw [freq_to_bin, toInt_of_nonneg f hf, toInt_of_nonneg _ h2]

theorem freq_to_bin_mono (s : SLM) (hHz : 0 < s.Hz_per_bin) (a b : ℚ) (hab : a ≤ b) :
    freq_to_bin s a ≤ freq_to_bin s b := by
  unfold freq_to_bin
  apply toInt_mono
  have h : ((toInt a : ℤ) : ℚ) ≤ ((toInt b : ℤ) : ℚ) := by exact_mod_cast toInt_mono a b hab
  have h2 := div_le_div_of_nonneg_right h (le_of_lt hHz)
  linarith

/-! ### Rounding to `float` and `double` -/

theorem floor_le_roundHalfEven (y : ℚ) : ⌊y⌋ ≤ roundHalfEven y := by
  unfold roundHalfEven
  split_ifs <;> omega

theorem roundHalfEven_le_ceil (y : ℚ) : roundHalfEven y ≤ ⌈y⌉ := by
  have hc : ⌈y⌉ ≤ ⌊y⌋ + 1 := Int.ceil_le_floor_add_one y
  have hfc : ⌊y⌋ ≤ ⌈y⌉ := Int.floor_le_ceil y
  unfold roundHalfEven
  by_cases h1 : y - ⌊y⌋ < 1 / 2
  · rw [if_pos h1]; exact hfc
  · have hpos : (⌊y⌋ : ℚ) < y := by linarith
    have hlt : ⌊y⌋ < ⌈y⌉ := by
      rw [Int.lt_ceil]; exact hpos
    rw [if_neg h1]
    split_ifs <;> omega

/-- A multiple `g = k * 2^z` of the rounding unit below `x` stays below the rounded value. -/
theorem le_roundBinary (p : ℕ) (emin : ℤ) (x : ℚ) (k : ℤ)
    (h : (k : ℚ) * (2 : ℚ) ^ ulpExp p emin x ≤ x) :
    (k : ℚ) * (2 : ℚ) ^ ulpExp p emin x ≤ roundBinary p emin x := by
  have hu : (0 : ℚ) < (2 : ℚ) ^ ulpExp p emin x := by positivity
  unfold roundBinary
  apply mul_le_mul_of_nonneg_right _ (le_of_lt hu)
  have h1 : (k : ℚ) ≤ x / (2 : ℚ) ^ ulpExp p emin x := by
    rw [le_div_iff₀ hu]; exact h
  have h2 : k ≤ ⌊x / (2 : ℚ) ^ ulpExp p emin x⌋ := Int.le_floor.mpr h1
  exact_mod_cast le_trans h2 (floor_le_roundHalfEven _)

theorem roundBinary_le (p : ℕ) (emin : ℤ) (x : ℚ) (k : ℤ)
    (h : x ≤ (k : ℚ) * (2 : ℚ) ^ ulpExp p emin x) :
    roundBinary p emin x ≤ (k : ℚ) * (2 : ℚ) ^ ulpExp p emin x := by
  have hu : (0 : ℚ) < (2 : ℚ) ^ ulpExp p emin x := by positivity
  unfold roundBinary
  apply mul_le_mul_of_nonneg_right _ (le_of_lt hu)
  have h1 : x / (2 : ℚ) ^ ulpExp p emin x ≤ (k : ℚ) := by
    rw [div_le_iff₀ hu]; exact h
  have h2 : ⌈x / (2 : ℚ) ^ ulpExp p emin x⌉ ≤ k := Int.ceil_le.mpr h1
  exact_mod_cast le_trans (roundHalfEven_le_ceil _) h2

/-- Multiples of `2^j` are multiples of `2^z` for `z ≤ j`. -/
theorem zpow_multiple (m z j : ℤ) (h : z ≤ j) :
    ∃ k : ℤ, (m : ℚ) * (2 : ℚ) ^ j = (k : ℚ) * (2 : ℚ) ^ z := by
  refine ⟨m * 2 ^ (j - z).toNat, ?_⟩
  have e : j = ((j - z).toNat : ℤ) + z := by omega
  have h2 : (2 : ℚ) ≠ 0 := by norm_num
  conv_lhs => rw [e, zpow_add₀ h2, zpow_natCast]
  push_cast
  ring

theorem ulpExp_le (p : ℕ) (emin : ℤ) (x : ℚ) (t : ℤ) (ht : 0 ≤ t) (hemin : emin ≤ t)
    (hx : |x| < (2 : ℚ) ^ (t + 1)) : ulpExp p emin x ≤ t - ((p : ℤ) - 1) := by
  have hlog : Int.log 2 |x| ≤ t := by
    by_cases h0 : |x| = 0
    · rw [h0, Int.log_zero_right]; exact ht
    · have hpos : 0 < |x| := lt_of_le_of_ne (abs_nonneg x) (Ne.symm h0)
      have := (Int.lt_zpow_iff_log_lt (b := 2) (by norm_num) hpos).mp (by exact_mod_cast hx)
      omega
  unfold ulpExp
  have := max_le hlog hemin
  omega

theorem le_roundBinary_of_multiple (p : ℕ) (emin : ℤ) (x : ℚ) (m j : ℤ)
    (hz : ulpExp p emin x ≤ j) (h : (m : ℚ) * (2 : ℚ) ^ j ≤ x) :
    (m : ℚ) * (2 : ℚ) ^ j ≤ roundBinary p emin x := by
  obtain ⟨k, hk⟩ := zpow_multiple m (ulpExp p emin x) j hz
  rw [hk] at h ⊢
  exact le_roundBinary p emin x k h

theorem roundBinary_le_of_multiple (p : ℕ) (emin : ℤ) (x : ℚ) (m j : ℤ)
    (hz : ulpExp p emin x ≤ j) (h : x ≤ (m : ℚ) * (2 : ℚ) ^ j) :
    roundBinary p emin x ≤ (m : ℚ) * (2 : ℚ) ^ j := by
  obtain ⟨k, hk⟩ := zpow_multiple m (ulpExp p emin x) j hz
  rw [hk] at h ⊢
  exact roundBinary_le p emin x k h

theorem roundBinary_eq_self (p : ℕ) (emin : ℤ) (x : ℚ) (k : ℤ)
    (h : x = (k : ℚ) * (2 : ℚ) ^ ulpExp p emin x) : roundBinary p emin x = x := by
  apply le_antisymm
  · have := roundBinary_le p emin x k (le_of_eq h)
    rw [← h] at this
    exact this
  · have := le_roundBinary p emin x k (le_of_eq h.symm)
    rw [← h] at this
    exact this

/-- Integers are kept and never crossed by float32 rounding below `2^24`. -/
theorem roundF32_int_bounds (x : ℚ) (hx : |x| < 2 ^ 24) (n : ℤ) :
    ((n : ℚ) ≤ x → (n : ℚ) ≤ roundF32 x) ∧ (x ≤ (n : ℚ) → roundF32 x ≤ (n : ℚ)) := by
  have hz : ulpExp 24 (-126) x ≤ 0 := by
    have := ulpExp_le 24 (-126) x 23 (by norm_num) (by norm_num) (by norm_num; exact hx)
    norm_num at this
    exact this
  constructor
  · intro h
    have := le_roundBinary_of_multiple 24 (-126) x n 0 hz (by simpa using h)
    simpa [roundF32] using this
  · intro h
    have := roundBinary_le_of_multiple 24 (-126) x n 0 hz (by simpa using h)
    simpa [roundF32] using this

theorem roundF32_natural (x : ℚ) (hx : |x| < 2 ^ 24) (n : ℤ) (h : x = n) : roundF32 x = x := by
  have hb := roundF32_int_bounds x hx n
  apply le_antisymm
  · rw [h] at hb ⊢
    exact hb.2 (le_refl _)
  · have := hb.1 (le_of_eq h.symm)
    rw [h] at this ⊢
    exact this

theorem roundF64_add_half_floor (q q' : ℚ) (K : ℤ) (z32 : ℤ)
    (_hq0 : 0 ≤ q) (hq'0 : 0 ≤ q') (hq'24 : q' + 1 / 2 < 2 ^ 24)
    (hK : q' = (K : ℚ) * (2 : ℚ) ^ z32)
    (hsmall : z32 < -29 → q' ≤ (1 : ℚ) / 64) :
    0 ≤ roundF64 (q' + 1 / 2) ∧ ⌊roundF64 (q' + 1 / 2)⌋ = ⌊q' + 1 / 2⌋ := by
  have hxpos : (0 : ℚ) < q' + 1 / 2 := by linarith
  have habs : |q' + 1 / 2| < 2 ^ 24 := by rw [abs_of_pos hxpos]; exact hq'24
  have hz : ulpExp 53 (-1022) (q' + 1 / 2) ≤ -29 := by
    have := ulpExp_le 53 (-1022) (q' + 1 / 2) 23 (by norm_num) (by norm_num)
      (by norm_num; exact habs)
    norm_num at this
    exact this
  -- the floor is a lower bound
  have hm : ((⌊q' + 1 / 2⌋ : ℤ) : ℚ) ≤ roundF64 (q' + 1 / 2) := by
    have := le_roundBinary_of_multiple 53 (-1022) (q' + 1 / 2) ⌊q' + 1 / 2⌋ 0 (by omega)
      (by simpa using Int.floor_le (q' + 1 / 2))
    simpa [roundF64] using this
  have hm0 : (0 : ℤ) ≤ ⌊q' + 1 / 2⌋ := Int.floor_nonneg.mpr (le_of_lt hxpos)
  have hnn : 0 ≤ roundF64 (q' + 1 / 2) := le_trans (by exact_mod_cast hm0) hm
  refine ⟨hnn, ?_⟩
  have hlt : roundF64 (q' + 1 / 2) < ((⌊q' + 1 / 2⌋ : ℤ) : ℚ) + 1 := by
    by_cases hc : ulpExp 53 (-1022) (q' + 1 / 2) ≤ z32
    · -- the sum is representable: no rounding
      obtain ⟨k1, hk1⟩ := zpow_multiple K (ulpExp 53 (-1022) (q' + 1 / 2)) z32 hc
      obtain ⟨k2, hk2⟩ := zpow_multiple 1 (ulpExp 53 (-1022) (q' + 1 / 2)) (-1) (by omega)
      have hx : q' + 1 / 2 = ((k1 + k2 : ℤ) : ℚ) * (2 : ℚ) ^ ulpExp 53 (-1022) (q' + 1 / 2) := by
        push_cast
        rw [add_mul, ← hk1, ← hk2, ← hK]
        norm_num
      have he : roundF64 (q' + 1 / 2) = q' + 1 / 2 :=
        roundBinary_eq_self 53 (-1022) (q' + 1 / 2) (k1 + k2) hx
      rw [he]
      exact Int.lt_floor_add_one _
    · -- the quotient is tiny: the sum stays below 1
      have hs := hsmall (by omega)
      have hle : q' + 1 / 2 ≤ ((33 : ℤ) : ℚ) * (2 : ℚ) ^ (-6 : ℤ) := by
        norm_num
        linarith
      have := roundBinary_le_of_multiple 53 (-1022) (q' + 1 / 2) 33 (-6) (by omega) hle
      have h1 : roundF64 (q' + 1 / 2) < 1 := by
        have e : ((33 : ℤ) : ℚ) * (2 : ℚ) ^ (-6 : ℤ) < 1 := by norm_num
        exact lt_of_le_of_lt this e
      have : (1 : ℚ) ≤ ((⌊q' + 1 / 2⌋ : ℤ) : ℚ) + 1 := by
        have : (0 : ℚ) ≤ ((⌊q' + 1 / 2⌋ : ℤ) : ℚ) := by exact_mod_cast hm0
        linarith
      linarith
  rw [Int.floor_eq_iff]
  exact ⟨hm, hlt⟩

theorem roundF32_small (q : ℚ) (hq0 : 0 ≤ q) (hz : ulpExp 24 (-126) q < -29) :
    roundF32 q ≤ (1 : ℚ) / 64 := by
  have hlog : Int.log 2 |q| < -6 := by
    have h1 : Int.log 2 |q| ≤ max (Int.log 2 |q|) (-126) := le_max_left _ _
    unfold ulpExp at hz
    push_cast at hz
    omega
  have hne : q ≠ 0 := by
    intro h0
    rw [h0, abs_zero, Int.log_zero_right] at hlog
    omega
  have hpos : 0 < q := lt_of_le_of_ne hq0 (Ne.symm hne)
  have hlt : q < (2 : ℚ) ^ (Int.log 2 |q| + 1) := by
    have := Int.lt_zpow_succ_log_self (b := 2) (by norm_num) |q|
    rw [abs_of_pos hpos] at this ⊢
    exact_mod_cast this
  have hle : (2 : ℚ) ^ (Int.log 2 |q| + 1) ≤ (2 : ℚ) ^ (-6 : ℤ) :=
    zpow_le_zpow_right₀ (by norm_num) (by omega)
  have hq : q ≤ ((1 : ℤ) : ℚ) * (2 : ℚ) ^ (-6 : ℤ) := by
    have := le_of_lt (lt_of_lt_of_le hlt hle)
    simpa using this
  have := roundBinary_le_of_multiple 24 (-126) q 1 (-6) (by omega) hq
  have e : ((1 : ℤ) : ℚ) * (2 : ℚ) ^ (-6 : ℤ) = 1 / 64 := by norm_num
  rw [e] at this
  exact this

/-- The core of `freq_to_bin` in float32/float64 arithmetic. -/
theorem round_quotient_core (i : ℤ) (hz : ℚ) (hi0 : 0 ≤ i) (hi24 : i < 2 ^ 24)
    (hHz : 0 < hz) (hq : (i : ℚ) / hz < 2 ^ 23) :
    toInt (roundF64 (roundF32 (roundF32 (i : ℚ) / hz) + 1 / 2)) =
      ⌊roundF32 ((i : ℚ) / hz) + 1 / 2⌋ ∧
    ⌊(i : ℚ) / hz⌋ ≤ ⌊roundF32 ((i : ℚ) / hz) + 1 / 2⌋ ∧
    ⌊roundF32 ((i : ℚ) / hz) + 1 / 2⌋ ≤ ⌊(i : ℚ) / hz⌋ + 1 := by
  have hiq : (0 : ℚ) ≤ (i : ℚ) := by exact_mod_cast hi0
  have hiabs : |(i : ℚ)| < 2 ^ 24 := by
    rw [abs_of_nonneg hiq]
    exact_mod_cast hi24
  have hconv : roundF32 (i : ℚ) = (i : ℚ) := roundF32_natural (i : ℚ) hiabs i rfl
  rw [hconv]
  have hq0 : 0 ≤ (i : ℚ) / hz := div_nonneg hiq (le_of_lt hHz)
  have hqabs : |(i : ℚ) / hz| < 2 ^ 24 := by
    rw [abs_of_nonneg hq0]
    linarith
  have hb0 := (roundF32_int_bounds ((i : ℚ) / hz) hqabs 0).1 (by simpa using hq0)
  have hlo := (roundF32_int_bounds ((i : ℚ) / hz) hqabs ⌊(i : ℚ) / hz⌋).1 (Int.floor_le _)
  have hhi := (roundF32_int_bounds ((i : ℚ) / hz) hqabs (⌊(i : ℚ) / hz⌋ + 1)).2
    (by push_cast; exact le_of_lt (Int.lt_floor_add_one _))
  have hn23 : ((⌊(i : ℚ) / hz⌋ : ℤ) : ℚ) < 2 ^ 23 := lt_of_le_of_lt (Int.floor_le _) hq
  have hq'0 : 0 ≤ roundF32 ((i : ℚ) / hz) := by simpa using hb0
  have hq'24 : roundF32 ((i : ℚ) / hz) + 1 / 2 < 2 ^ 24 := by
    push_cast at hhi
    linarith
  have hcore := roundF64_add_half_floor ((i : ℚ) / hz) (roundF32 ((i : ℚ) / hz))
    (roundHalfEven (((i : ℚ) / hz) / (2 : ℚ) ^ ulpExp 24 (-126) ((i : ℚ) / hz)))
    (ulpExp 24 (-126) ((i : ℚ) / hz)) hq0 hq'0 hq'24 rfl
    (fun h => roundF32_small _ hq0 h)
  refine ⟨?_, ?_, ?_⟩
  · rw [toInt, if_pos hcore.1]
    exact hcore.2
  · apply Int.le_floor.mpr
    linarith
  · have : ⌊roundF32 ((i : ℚ) / hz) + 1 / 2⌋ < ⌊(i : ℚ) / hz⌋ + 1 + 1 := by
      rw [Int.floor_lt]
      push_cast at hhi ⊢
      linarith
    omega

theorem log_eq_of_binade (x : ℚ) (e : ℤ) (h1 : (2 : ℚ) ^ e ≤ x) (h2 : x < (2 : ℚ) ^ (e + 1)) :
    Int.log 2 |x| = e := by
  have hx : 0 < x := lt_of_lt_of_le (by positivity) h1
  rw [abs_of_pos hx]
  have a := (Int.zpow_le_iff_le_log (b := 2) (by norm_num) hx).mp (by exact_mod_cast h1)
  have b := (Int.lt_zpow_iff_log_lt (b := 2) (by norm_num) hx).mp (by exact_mod_cast h2)
  omega

theorem roundF32_of_binade (x : ℚ) (e : ℤ) (h1 : (2 : ℚ) ^ e ≤ x)
    (h2 : x < (2 : ℚ) ^ (e + 1)) (he : -126 ≤ e) :
    roundF32 x = (roundHalfEven (x / (2 : ℚ) ^ (e - 23)) : ℚ) * (2 : ℚ) ^ (e - 23) := by
  have hz : ulpExp 24 (-126) x = e - 23 := by
    unfold ulpExp
    rw [log_eq_of_binade x e h1 h2, max_eq_left he]
    norm_num
  rw [roundF32, roundBinary, hz]

/-! ### `freq_to_bin` in float32 arithmetic -/

theorem freq_to_bin_f32_of_range (s : SLM) (f : ℚ) (hf : 0 ≤ f) (hf24 : f < 2 ^ 24)
    (hHz : 0 < s.Hz_per_bin) (hq : ((⌊f⌋ : ℤ) : ℚ) / s.Hz_per_bin < 2 ^ 23) :
    freq_to_bin_f32 s f = ⌊roundF32 (((⌊f⌋ : ℤ) : ℚ) / s.Hz_per_bin) + 1 / 2⌋ ∧
    ⌊((⌊f⌋ : ℤ) : ℚ) / s.Hz_per_bin⌋ ≤ freq_to_bin_f32 s f ∧
    freq_to_bin_f32 s f ≤ ⌊((⌊f⌋ : ℤ) : ℚ) / s.Hz_per_bin⌋ + 1 := by
  have hi0 : (0 : ℤ) ≤ ⌊f⌋ := Int.floor_nonneg.mpr hf
  have hi24 : ⌊f⌋ < 2 ^ 24 := by
    rw [Int.floor_lt]
    exact_mod_cast hf24
  have h := round_quotient_core ⌊f⌋ s.Hz_per_bin hi0 hi24 hHz hq
  have e : freq_to_bin_f32 s f =
      ⌊roundF32 (((⌊f⌋ : ℤ) : ℚ) / s.Hz_per_bin) + 1 / 2⌋ := by
    rw [freq_to_bin_f32, toInt_of_nonneg f hf]
    exact h.1
  rw [e]
  exact ⟨rfl, h.2.1, h.2.2⟩

theorem freq_to_bin_f32_5000 : freq_to_bin_f32 slm512 5000 = 58 := by
  have hHz : slm512.Hz_per_bin = 44100 / 512 := by norm_num [slm512, customSetup, init]
  have h := (freq_to_bin_f32_of_range slm512 5000 (by norm_num) (by norm_num)
    (by rw [hHz]; norm_num) (by rw [hHz]; norm_num)).1
  rw [h, hHz, roundF32_of_binade _ 5 (by norm_num) (by norm_num) (by norm_num)]
  norm_num [roundHalfEven]

theorem freq_to_bin_f32_5050 : freq_to_bin_f32 slm512 5050 = 59 := by
  have hHz : slm512.Hz_per_bin = 44100 / 512 := by norm_num [slm512, customSetup, init]
  have h := (freq_to_bin_f32_of_range slm512 5050 (by norm_num) (by norm_num)
    (by rw [hHz]; norm_num) (by rw [hHz]; norm_num)).1
  rw [h, hHz, roundF32_of_binade _ 5 (by norm_num) (by norm_num) (by norm_num)]
  norm_num [roundHalfEven]

/-- At 44100 Hz and `NFFT = 4096` the exact quotient `19213 / Hz_per_bin` is
1784.49995..., which rounds to the `float` 1784.5: the code returns 1785,
one more than the exact-arithmetic value 1784. -/
theorem freq_to_bin_f32_19213 :
    freq_to_bin_f32 slm4096 19213 = 1785 ∧ freq_to_bin slm4096 19213 = 1784 := by
  have hHz : slm4096.Hz_per_bin = 44100 / 4096 := by norm_num [slm4096, customSetup, init]
  have h := (freq_to_bin_f32_of_range slm4096 19213 (by norm_num) (by norm_num)
    (by rw [hHz]; norm_num) (by rw [hHz]; norm_num)).1
  constructor
  · rw [h, hHz, roundF32_of_binade _ 10 (by norm_num) (by norm_num) (by norm_num)]
    norm_num [roundHalfEven]
  · norm_num [freq_to_bin, slm4096, customSetup, init, toInt]

/-- In the range where `float` holds every integer, the exact-arithmetic
`freq_to_bin` and the float32 `freq_to_bin_f32` differ by at most one bin. -/
theorem freq_to_bin_f32_near (s : SLM) (f : ℚ) (hf : 0 ≤ f) (hf24 : f < 2 ^ 24)
    (hHz : 0 < s.Hz_per_bin) (hq : ((⌊f⌋ : ℤ) : ℚ) / s.Hz_per_bin < 2 ^ 23) :
    |freq_to_bin_f32 s f - freq_to_bin s f| ≤ 1 := by
  have h := freq_to_bin_f32_of_range s f hf hf24 hHz hq
  have e := freq_to_bin_of_nonneg s f hf hHz
  have h1 : ⌊((⌊f⌋ : ℤ) : ℚ) / s.Hz_per_bin⌋ ≤ freq_to_bin s f := by
    rw [e]
    apply Int.le_floor.mpr
    have := Int.floor_le (((⌊f⌋ : ℤ) : ℚ) / s.Hz_per_bin)
    linarith
  have h2 : freq_to_bin s f < ⌊((⌊f⌋ : ℤ) : ℚ) / s.Hz_per_bin⌋ + 1 + 1 := by
    rw [e, Int.floor_lt]
    have := Int.lt_floor_add_one (((⌊f⌋ : ℤ) : ℚ) / s.Hz_per_bin)
    push_cast
    linarith
  rw [abs_le]
  constructor <;> omega

/-- C3, counterexample: at 44100 Hz and `NFFT = 512` (`Hz_per_bin` is
86.1328125), `freq_to_bin(5050)` is 59 while `5050 / Hz_per_bin` (58.63...)
truncated toward zero is 58: the `+0.5` offset changes the returned bin. -/
theorem freq_to_bin_not_truncation :
    (0 : ℚ) ≤ 5050 ∧ 0 < slm512.Hz_per_bin ∧
    freq_to_bin_f32 slm512 5050 = 59 ∧ toInt (5050 / slm512.Hz_per_bin) = 58 ∧
    freq_to_bin_f32 slm512 5050 ≠ toInt (5050 / slm512.Hz_per_bin) := by
  have h1 : freq_to_bin_f32 slm512 5050 = 59 := freq_to_bin_f32_5050
  have h2 : toInt (5050 / slm512.Hz_per_bin) = 58 := by
    norm_num [slm512, customSetup, init, toInt]
  refine ⟨by norm_num, by norm_num [slm512, customSetup, init], h1, h2, ?_⟩
  rw [h1, h2]
  decide

/-- C3, amended: for every frequency `f` with `0 ≤ f < 2^24` and every
`Hz_per_bin > 0` with `floor(f) / Hz_per_bin < 2^23` (the range in which
`float` holds every integer), `freq_to_bin(f)`, computed with the rounding of
the float32 division and of the float64 addition, is `floor(q32 + 1/2)`,
where `q32` is the float32 quotient of `floor(f)` by `Hz_per_bin`: the
`+0.5` offset rounds a fractional quotient to the nearest integer.  The
result is the truncation of `floor(f) / Hz_per_bin` or that plus one; with
sample rate 44100 and `NFFT = 512`, `freq_to_bin(5000) = 58`. -/
theorem freq_to_bin_rounds (s : SLM) (f : ℚ) (hf : 0 ≤ f) (hf24 : f < 2 ^ 24)
    (hHz : 0 < s.Hz_per_bin) (hq : ((⌊f⌋ : ℤ) : ℚ) / s.Hz_per_bin < 2 ^ 23) :
    freq_to_bin_f32 s f = ⌊roundF32 (((⌊f⌋ : ℤ) : ℚ) / s.Hz_per_bin) + 1 / 2⌋ ∧
    toInt (((⌊f⌋ : ℤ) : ℚ) / s.Hz_per_bin) ≤ freq_to_bin_f32 s f ∧
    freq_to_bin_f32 s f ≤ toInt (((⌊f⌋ : ℤ) : ℚ) / s.Hz_per_bin) + 1 ∧
    freq_to_bin_f32 slm512 5000 = 58 := by
  have h := freq_to_bin_f32_of_range s f hf hf24 hHz hq
  have hq0 : (0 : ℚ) ≤ ((⌊f⌋ : ℤ) : ℚ) / s.Hz_per_bin :=
    div_nonneg (by exact_mod_cast Int.floor_nonneg.mpr hf) (le_of_lt hHz)
  rw [toInt_of_nonneg _ hq0]
  exact ⟨h.1, h.2.1, h.2.2, freq_to_bin_f32_5000⟩

/-- Witness of the amended C3 at `f = 19213`, 44100 Hz, `NFFT = 4096`, where
the float32 quotient is 1784.5 and the result 1785. -/
theorem freq_to_bin_rounds_witness :
    freq_to_bin_f32 slm4096 19213 =
      ⌊roundF32 (((⌊(19213 : ℚ)⌋ : ℤ) : ℚ) / slm4096.Hz_per_bin) + 1 / 2⌋ ∧
    toInt (((⌊(19213 : ℚ)⌋ : ℤ) : ℚ) / slm4096.Hz_per_bin) ≤ freq_to_bin_f32 slm4096 19213 ∧
    freq_to_bin_f32 slm4096 19213 ≤
      toInt (((⌊(19213 : ℚ)⌋ : ℤ) : ℚ) / slm4096.Hz_per_bin) + 1 ∧
    freq_to_bin_f32 slm512 5000 = 58 :=
  freq_to_bin_rounds slm4096 19213 (by norm_num) (by norm_num)
    (by norm_num [slm4096, customSetup, init])
    (by norm_num [slm4096, customSetup, init])

/-! ## Ordering and range of the boundaries (C8) -/

theorem freq_to_bin_nonneg (s : SLM) (f : ℚ) (hf : 0 ≤ f) (hHz : 0 < s.Hz_per_bin) :
    0 ≤ freq_to_bin s f := by
  rw [freq_to_bin_of_nonneg s f hf hHz]
  have h1 : (0 : ℚ) ≤ ((⌊f⌋ : ℤ) : ℚ) := by exact_mod_cast Int.floor_nonneg.mpr hf
  exact Int.floor_nonneg.mpr (by positivity)

theorem freq_to_bin_le_half (s : SLM) (f : ℚ) (hf : 0 ≤ f)
    (hrate : 0 < s.sample_rate_Hz) (hnfft : 0 < s.NFFT) (heven : 2 ∣ s.NFFT)
    (hHz : s.Hz_per_bin = s.sample_rate_Hz / (s.NFFT : ℚ))
    (hle : f ≤ s.sample_rate_Hz / 2) :
    freq_to_bin s f ≤ Int.tdiv s.NFFT 2 := by
  obtain ⟨m, hm⟩ := heven
  have hn : (0 : ℚ) < (s.NFFT : ℚ) := by exact_mod_cast hnfft
  have hpos : 0 < s.Hz_per_bin := by rw [hHz]; positivity
  have htd : Int.tdiv s.NFFT 2 = m := by
    rw [Int.tdiv_eq_ediv (le_of_lt hnfft) (by norm_num)]
    omega
  rw [htd, freq_to_bin_of_nonneg s f hf hpos]
  have hfl : ((⌊f⌋ : ℤ) : ℚ) ≤ s.sample_rate_Hz / 2 := le_trans (Int.floor_le f) hle
  have hq : ((⌊f⌋ : ℤ) : ℚ) / s.Hz_per_bin ≤ (m : ℚ) := by
    rw [div_le_iff₀ hpos, hHz]
    have hmq : (s.NFFT : ℚ) = 2 * (m : ℚ) := by exact_mod_cast hm
    have e : (m : ℚ) * (s.sample_rate_Hz / (s.NFFT : ℚ)) = s.sample_rate_Hz / 2 := by
      rw [hmq] at hn ⊢
      have hm0 : (m : ℚ) ≠ 0 := by
        intro h0
        rw [h0] at hn
        simp at hn
      field_simp
      ring
    rw [e]
    exact hfl
  have hlt : ⌊((⌊f⌋ : ℤ) : ℚ) / s.Hz_per_bin + 1 / 2⌋ < m + 1 := by
    rw [Int.floor_lt]
    push_cast
    linarith
  omega

theorem pairwise_set_last (l : List ℤ) (m : ℤ) (hs : l.Pairwise (· ≤ ·))
    (hb : ∀ b ∈ l, b ≤ m) : (l.set (l.length - 1) m).Pairwise (· ≤ ·) := by
  rw [List.pairwise_iff_getElem] at hs ⊢
  intro i j hi hj hij
  rw [List.length_set] at hi hj
  rw [List.getElem_set, List.getElem_set]
  have hne : ¬ l.length - 1 = i := by omega
  rw [if_neg hne]
  by_cases hj' : l.length - 1 = j
  · rw [if_pos hj']
    exact hb _ (List.getElem_mem _)
  · rw [if_neg hj']
    exact hs i j hi hj hij

/-- C8: in a state with the values `customSetup` leaves (`N_2 = NFFT/2 + 1`,
`Hz_per_bin = sample_rate_Hz/NFFT`), `sample_rate_Hz > 0` and even `NFFT > 0`,
for every list of at least 2 frequencies that is non-decreasing with every
entry in `[0, sample_rate_Hz/2]`, the `bandBins` produced by `setBandFreqs` is
non-decreasing and every entry lies in `[0, NFFT/2]`; and for the
out-of-order list `[0, 10000, 5000, 20000]` (44100 Hz, `NFFT = 512`) the
produced boundaries are `[0, 116, 58, 256]`, whose interior entries are not
ascending. -/
theorem setBandFreqs_sorted_in_range (s : SLM) (fs : List ℚ)
    (hrate : 0 < s.sample_rate_Hz) (hnfft : 0 < s.NFFT) (heven : 2 ∣ s.NFFT)
    (hN2 : s.N_2 = Int.tdiv s.NFFT 2 + 1)
    (hHz : s.Hz_per_bin = s.sample_rate_Hz / (s.NFFT : ℚ))
    (_hlen : 2 ≤ fs.length)
    (hsorted : fs.Pairwise (· ≤ ·))
    (hrange : ∀ f ∈ fs, 0 ≤ f ∧ f ≤ s.sample_rate_Hz / 2) :
    (setBandFreqs s fs).bandBins.Pairwise (· ≤ ·) ∧
    (∀ b ∈ (setBandFreqs s fs).bandBins, 0 ≤ b ∧ b ≤ Int.tdiv s.NFFT 2) ∧
    ((setBandFreqs slm512 [0, 10000, 5000, 20000]).bandBins = [0, 116, 58, 256] ∧
      ¬ (setBandFreqs slm512 [0, 10000, 5000, 20000]).bandBins.dropLast.Pairwise (· ≤ ·)) := by
  have hn : (0 : ℚ) < (s.NFFT : ℚ) := by exact_mod_cast hnfft
  have hpos : 0 < s.Hz_per_bin := by rw [hHz]; positivity
  have hhalf : 0 ≤ Int.tdiv s.NFFT 2 := by
    rw [Int.tdiv_eq_ediv (le_of_lt hnfft) (by norm_num)]
    omega
  have hmap : ∀ b ∈ fs.map (freq_to_bin s), 0 ≤ b ∧ b ≤ Int.tdiv s.NFFT 2 := by
    intro b hb
    obtain ⟨f, hf, rfl⟩ := List.mem_map.mp hb
    exact ⟨freq_to_bin_nonneg s f (hrange f hf).1 hpos,
      freq_to_bin_le_half s f (hrange f hf).1 hrate hnfft heven hHz (hrange f hf).2⟩
  have hlast : s.N_2 - 1 = Int.tdiv s.NFFT 2 := by omega
  have hex : (setBandFreqs slm512 [0, 10000, 5000, 20000]).bandBins = [0, 116, 58, 256] := by
    norm_num [setBandFreqs, freq_to_bin, slm512, customSetup, init, toInt]
    rfl
  refine ⟨?_, ?_, hex, ?_⟩
  · simp only [setBandFreqs]
    rw [hlast]
    apply pairwise_set_last
    · exact List.Pairwise.map (freq_to_bin s) (fun a b hab => freq_to_bin_mono s hpos a b hab)
        hsorted
    · exact fun b hb => (hmap b hb).2
  · intro b hb
    simp only [setBandFreqs] at hb
    rcases List.mem_or_eq_of_mem_set hb with h | h
    · exact hmap b h
    · rw [h, hlast]
      exact ⟨hhalf, le_refl _⟩
  · rw [hex]
    decide

/-- Witness of C8 at the scenario of the specification: breakpoints
`[0, 5000, 10000]` at 44100 Hz and `NFFT = 512`. -/
theorem setBandFreqs_sorted_in_range_witness :
    (setBandFreqs slm512 [0, 5000, 10000]).bandBins.Pairwise (· ≤ ·) ∧
    (∀ b ∈ (setBandFreqs slm512 [0, 5000, 10000]).bandBins,
      0 ≤ b ∧ b ≤ Int.tdiv slm512.NFFT 2) ∧
    ((setBandFreqs slm512 [0, 10000, 5000, 20000]).bandBins = [0, 116, 58, 256] ∧
      ¬ (setBandFreqs slm512 [0, 10000, 5000, 20000]).bandBins.dropLast.Pairwise (· ≤ ·)) :=
  setBandFreqs_sorted_in_range slm512 [0, 5000, 10000]
    (by norm_num [slm512, customSetup]) (by decide)
    ⟨256, rfl⟩ rfl rfl (by simp) (by norm_num)
    (by
      intro f hf
      simp only [List.mem_cons, List.mem_singleton, List.not_mem_nil, or_false] at hf
      rcases hf with h | h | h <;> rw [h] <;> norm_num [slm512, customSetup])

/-! ## The float32 conversion: order and range -/

theorem roundHalfEven_le_floor_add_one (y : ℚ) : roundHalfEven y ≤ ⌊y⌋ + 1 := by
  unfold roundHalfEven
  split_ifs <;> omega

theorem roundHalfEven_mono (a b : ℚ) (hab : a ≤ b) : roundHalfEven a ≤ roundHalfEven b := by
  have hfl : ⌊a⌋ ≤ ⌊b⌋ := Int.floor_mono hab
  by_cases hlt : ⌊a⌋ < ⌊b⌋
  · have h1 := roundHalfEven_le_floor_add_one a
    have h2 := floor_le_roundHalfEven b
    omega
  · have he : ⌊a⌋ = ⌊b⌋ := by omega
    have hq : ((⌊a⌋ : ℤ) : ℚ) = ((⌊b⌋ : ℤ) : ℚ) := by rw [he]
    unfold roundHalfEven
    rw [he]
    split_ifs <;> first | omega | (exfalso; linarith)

theorem roundBinary_zero (p : ℕ) (emin : ℤ) : roundBinary p emin 0 = 0 := by
  simp [roundBinary, roundHalfEven]

theorem roundBinary_mono (p : ℕ) (emin : ℤ) (x y : ℚ) (hp : 1 ≤ p) (hx : 0 ≤ x)
    (hxy : x ≤ y) :
    roundBinary p emin x ≤ roundBinary p emin y := by
  by_cases hx0 : x = 0
  · rw [hx0, roundBinary_zero]
    have := le_roundBinary p emin y 0 (by simpa using le_trans hx hxy)
    simpa using this
  · have hxpos : 0 < x := lt_of_le_of_ne hx (Ne.symm hx0)
    have hypos : 0 < y := lt_of_lt_of_le hxpos hxy
    have hlog : Int.log 2 |x| ≤ Int.log 2 |y| := by
      rw [abs_of_pos hxpos, abs_of_pos hypos]
      exact Int.log_mono_right hxpos hxy
    by_cases hz : ulpExp p emin x = ulpExp p emin y
    · have hu : (0 : ℚ) < (2 : ℚ) ^ ulpExp p emin y := by positivity
      unfold roundBinary
      rw [hz]
      apply mul_le_mul_of_nonneg_right _ (le_of_lt hu)
      exact_mod_cast roundHalfEven_mono _ _ (div_le_div_of_nonneg_right hxy (le_of_lt hu))
    · -- a power of two separates the two binades
      have hlt : Int.log 2 |x| < Int.log 2 |y| := by
        rcases lt_or_eq_of_le hlog with h | h
        · exact h
        · exfalso
          apply hz
          unfold ulpExp
          rw [h]
      have hey : emin ≤ Int.log 2 |y| ∨ Int.log 2 |y| < emin := le_or_lt _ _
      have hzx : ulpExp p emin x ≤ Int.log 2 |y| ∧ ulpExp p emin y ≤ Int.log 2 |y| := by
        have hp' : (1 : ℤ) ≤ (p : ℤ) := by exact_mod_cast hp
        rcases hey with h | h
        · have e1 : ulpExp p emin x = max (Int.log 2 |x|) emin - ((p : ℤ) - 1) := rfl
          have e2 : ulpExp p emin y = Int.log 2 |y| - ((p : ℤ) - 1) := by
            unfold ulpExp
            rw [max_eq_left h]
          have : max (Int.log 2 |x|) emin ≤ Int.log 2 |y| := max_le (le_of_lt hlt) h
          constructor <;> omega
        · exfalso
          apply hz
          unfold ulpExp
          rw [max_eq_right (le_of_lt h), max_eq_right (le_of_lt (lt_trans hlt h))]
      have hB1 : x ≤ ((1 : ℤ) : ℚ) * (2 : ℚ) ^ Int.log 2 |y| := by
        have h1 : x < (2 : ℚ) ^ (Int.log 2 |x| + 1) := by
          have := Int.lt_zpow_succ_log_self (b := 2) (by norm_num) |x|
          rw [abs_of_pos hxpos] at this ⊢
          exact_mod_cast this
        have h2 : (2 : ℚ) ^ (Int.log 2 |x| + 1) ≤ (2 : ℚ) ^ Int.log 2 |y| :=
          zpow_le_zpow_right₀ (by norm_num) (by omega)
        have := le_of_lt (lt_of_lt_of_le h1 h2)
        simpa using this
      have hB2 : ((1 : ℤ) : ℚ) * (2 : ℚ) ^ Int.log 2 |y| ≤ y := by
        have := Int.zpow_log_le_self (b := 2) (by norm_num) (abs_pos.mpr (ne_of_gt hypos))
        rw [abs_of_pos hypos] at this ⊢
        have h' : (2 : ℚ) ^ Int.log 2 y ≤ y := by exact_mod_cast this
        simpa using h'
      exact le_trans (roundBinary_le_of_multiple p emin x 1 _ hzx.1 hB1)
        (le_roundBinary_of_multiple p emin y 1 _ hzx.2 hB2)

theorem roundBinary_nonneg (p : ℕ) (emin : ℤ) (x : ℚ) (hx : 0 ≤ x) :
    0 ≤ roundBinary p emin x := by
  have := le_roundBinary p emin x 0 (by simpa using hx)
  simpa using this

/-- The float32 conversion is monotone on non-negative frequencies, like the
exact one (`freq_to_bin_mono`). -/
theorem freq_to_bin_f32_mono (s : SLM) (hHz : 0 < s.Hz_per_bin) (a b : ℚ) (ha : 0 ≤ a)
    (hab : a ≤ b) : freq_to_bin_f32 s a ≤ freq_to_bin_f32 s b := by
  unfold freq_to_bin_f32
  apply toInt_mono
  have hta : (0 : ℚ) ≤ ((toInt a : ℤ) : ℚ) := by
    rw [toInt_of_nonneg a ha]
    exact_mod_cast Int.floor_nonneg.mpr ha
  have h1 : ((toInt a : ℤ) : ℚ) ≤ ((toInt b : ℤ) : ℚ) := by exact_mod_cast toInt_mono a b hab
  have h2 : roundF32 ((toInt a : ℤ) : ℚ) ≤ roundF32 ((toInt b : ℤ) : ℚ) :=
    roundBinary_mono 24 (-126) _ _ (by norm_num) hta h1
  have h2' : 0 ≤ roundF32 ((toInt a : ℤ) : ℚ) := roundBinary_nonneg 24 (-126) _ hta
  have h3 : roundF32 ((toInt a : ℤ) : ℚ) / s.Hz_per_bin ≤
      roundF32 ((toInt b : ℤ) : ℚ) / s.Hz_per_bin :=
    div_le_div_of_nonneg_right h2 (le_of_lt hHz)
  have h3' : 0 ≤ roundF32 ((toInt a : ℤ) : ℚ) / s.Hz_per_bin :=
    div_nonneg h2' (le_of_lt hHz)
  have h4 : roundF32 (roundF32 ((toInt a : ℤ) : ℚ) / s.Hz_per_bin) ≤
      roundF32 (roundF32 ((toInt b : ℤ) : ℚ) / s.Hz_per_bin) :=
    roundBinary_mono 24 (-126) _ _ (by norm_num) h3' h3
  have h4' : 0 ≤ roundF32 (roundF32 ((toInt a : ℤ) : ℚ) / s.Hz_per_bin) :=
    roundBinary_nonneg 24 (-126) _ h3'
  exact roundBinary_mono 53 (-1022) _ _ (by norm_num) (by linarith) (by linarith)

theorem freq_to_bin_f32_nonneg (s : SLM) (f : ℚ) (hf : 0 ≤ f) (hHz : 0 < s.Hz_per_bin) :
    0 ≤ freq_to_bin_f32 s f := by
  have hta : (0 : ℚ) ≤ ((toInt f : ℤ) : ℚ) := by
    rw [toInt_of_nonneg f hf]
    exact_mod_cast Int.floor_nonneg.mpr hf
  have h1 : 0 ≤ roundF32 ((toInt f : ℤ) : ℚ) := roundBinary_nonneg 24 (-126) _ hta
  have h2 : 0 ≤ roundF32 (roundF32 ((toInt f : ℤ) : ℚ) / s.Hz_per_bin) :=
    roundBinary_nonneg 24 (-126) _ (div_nonneg h1 (le_of_lt hHz))
  have h3 : 0 ≤ roundF64 (roundF32 (roundF32 ((toInt f : ℤ) : ℚ) / s.Hz_per_bin) + 1 / 2) :=
    roundBinary_nonneg 53 (-1022) _ (by linarith)
  rw [freq_to_bin_f32, toInt_of_nonneg _ h3]
  exact Int.floor_nonneg.mpr h3

/-- The float32 conversion maps `[0, sample_rate_Hz/2]` into `[0, NFFT/2]`,
like the exact one (`freq_to_bin_le_half`), for `NFFT` and frequencies below
`2^24`. -/
theorem freq_to_bin_f32_le_half (s : SLM) (f : ℚ) (hf : 0 ≤ f) (hf24 : f < 2 ^ 24)
    (hrate : 0 < s.sample_rate_Hz) (hnfft : 0 < s.NFFT) (hn24 : s.NFFT < 2 ^ 24)
    (heven : 2 ∣ s.NFFT)
    (hHz : s.Hz_per_bin = s.sample_rate_Hz / (s.NFFT : ℚ))
    (hle : f ≤ s.sample_rate_Hz / 2) :
    freq_to_bin_f32 s f ≤ Int.tdiv s.NFFT 2 := by
  obtain ⟨m, hm⟩ := heven
  have hn : (0 : ℚ) < (s.NFFT : ℚ) := by exact_mod_cast hnfft
  have hpos : 0 < s.Hz_per_bin := by rw [hHz]; positivity
  have htd : Int.tdiv s.NFFT 2 = m := by
    rw [Int.tdiv_eq_ediv (le_of_lt hnfft) (by norm_num)]
    omega
  have hm23 : (m : ℚ) < 2 ^ 23 := by
    have : m < 2 ^ 23 := by omega
    exact_mod_cast this
  have hfl : ((⌊f⌋ : ℤ) : ℚ) ≤ s.sample_rate_Hz / 2 := le_trans (Int.floor_le f) hle
  have hq : ((⌊f⌋ : ℤ) : ℚ) / s.Hz_per_bin ≤ (m : ℚ) := by
    rw [div_le_iff₀ hpos, hHz]
    have hmq : (s.NFFT : ℚ) = 2 * (m : ℚ) := by exact_mod_cast hm
    have e : (m : ℚ) * (s.sample_rate_Hz / (s.NFFT : ℚ)) = s.sample_rate_Hz / 2 := by
      rw [hmq] at hn ⊢
      have hm0 : (m : ℚ) ≠ 0 := by
        intro h0
        rw [h0] at hn
        simp at hn
      field_simp
      ring
    rw [e]
    exact hfl
  have hq0 : (0 : ℚ) ≤ ((⌊f⌋ : ℤ) : ℚ) / s.Hz_per_bin :=
    div_nonneg (by exact_mod_cast Int.floor_nonneg.mpr hf) (le_of_lt hpos)
  have hq23 : ((⌊f⌋ : ℤ) : ℚ) / s.Hz_per_bin < 2 ^ 23 := lt_of_le_of_lt hq hm23
  have hqabs : |((⌊f⌋ : ℤ) : ℚ) / s.Hz_per_bin| < 2 ^ 24 := by
    rw [abs_of_nonneg hq0]
    linarith
  have hr := (freq_to_bin_f32_of_range s f hf hf24 hpos hq23).1
  have hP := (roundF32_int_bounds _ hqabs m).2 hq
  rw [htd, hr]
  have : ⌊roundF32 (((⌊f⌋ : ℤ) : ℚ) / s.Hz_per_bin) + 1 / 2⌋ < m + 1 := by
    rw [Int.floor_lt]
    push_cast
    linarith
  omega

/-- The boundaries that lines 63-69 produce with the float32 conversion are
non-decreasing and lie in `[0, NFFT/2]` under the conditions of C8, for `NFFT`
and frequencies below `2^24`: the conclusion of
`setBandFreqs_sorted_in_range` does not depend on the exact quotient. -/
theorem bandBins_f32_sorted_in_range (s : SLM) (fs : List ℚ)
    (hrate : 0 < s.sample_rate_Hz) (hnfft : 0 < s.NFFT) (hn24 : s.NFFT < 2 ^ 24)
    (heven : 2 ∣ s.NFFT)
    (hN2 : s.N_2 = Int.tdiv s.NFFT 2 + 1)
    (hHz : s.Hz_per_bin = s.sample_rate_Hz / (s.NFFT : ℚ))
    (hsorted : fs.Pairwise (· ≤ ·))
    (hrange : ∀ f ∈ fs, 0 ≤ f ∧ f < 2 ^ 24 ∧ f ≤ s.sample_rate_Hz / 2) :
    ((fs.map (freq_to_bin_f32 s)).set ((fs.map (freq_to_bin_f32 s)).length - 1)
        (s.N_2 - 1)).Pairwise (· ≤ ·) ∧
    ∀ b ∈ (fs.map (freq_to_bin_f32 s)).set ((fs.map (freq_to_bin_f32 s)).length - 1)
        (s.N_2 - 1), 0 ≤ b ∧ b ≤ Int.tdiv s.NFFT 2 := by
  have hn : (0 : ℚ) < (s.NFFT : ℚ) := by exact_mod_cast hnfft
  have hpos : 0 < s.Hz_per_bin := by rw [hHz]; positivity
  have hhalf : 0 ≤ Int.tdiv s.NFFT 2 := by
    rw [Int.tdiv_eq_ediv (le_of_lt hnfft) (by norm_num)]
    omega
  have hlast : s.N_2 - 1 = Int.tdiv s.NFFT 2 := by omega
  have hmap : ∀ b ∈ fs.map (freq_to_bin_f32 s), 0 ≤ b ∧ b ≤ Int.tdiv s.NFFT 2 := by
    intro b hb
    obtain ⟨f, hf, rfl⟩ := List.mem_map.mp hb
    exact ⟨freq_to_bin_f32_nonneg s f (hrange f hf).1 hpos,
      freq_to_bin_f32_le_half s f (hrange f hf).1 (hrange f hf).2.1 hrate hnfft hn24 heven hHz
        (hrange f hf).2.2⟩
  have hmono : (fs.map (freq_to_bin_f32 s)).Pairwise (· ≤ ·) := by
    rw [List.pairwise_map]
    refine List.Pairwise.imp_of_mem ?_ hsorted
    intro a b ha _ hab
    exact freq_to_bin_f32_mono s hpos a b (hrange a ha).1 hab
  rw [hlast]
  constructor
  · exact pairwise_set_last _ _ hmono (fun b hb => (hmap b hb).2)
  · intro b hb
    rcases List.mem_or_eq_of_mem_set hb with h | h
    · exact hmap b h
    · rw [h]
      exact ⟨hhalf, le_refl _⟩

/-! ## What `processAudioFD` reads (helpers for C4, C5, C6, C10) -/

theorem getD_mem (l : List ℤ) (i : ℕ) (hi : i < l.length) : l.getD i 0 ∈ l := by
  rw [List.getD_eq_getElem l 0 hi]
  exact List.getElem_mem _

theorem loopInds_self (lo : ℤ) : loopInds lo lo = [] := by
  simp [loopInds]

theorem bandSum_zero (bandBins : List ℤ) (sc : ℚ) (i : ℕ) :
    bandSum bandBins sc (fun _ => 0) i = 0 := by
  have h : bandTerm bandBins sc (fun _ => 0) i = fun _ => 0 := by
    funext ind
    simp [bandTerm]
  rw [bandSum, h]
  simp

theorem bandSum_congr (bandBins : List ℤ) (sc : ℚ) (mag mag' : ℤ → ℚ) (i : ℕ)
    (h : ∀ ind, bandBins.getD i 0 ≤ ind → ind < bandBins.getD (i + 1) 0 →
      mag ind = mag' ind) :
    bandSum bandBins sc mag i = bandSum bandBins sc mag' i := by
  unfold bandSum
  congr 1
  apply List.map_congr_left
  intro ind hind
  rw [mem_loopInds] at hind
  simp only [bandTerm, h ind hind.1 hind.2]

theorem orig_mag_in_range (s : SLM) (stack : ℤ → ℚ) (buf : ℕ → ℚ)
    (hrange : ∀ b ∈ s.bandBins, 0 ≤ b ∧ b ≤ s.N_2 - 1) (i : ℕ)
    (hi : i + 1 < s.bandBins.length) (ind : ℤ)
    (h1 : s.bandBins.getD i 0 ≤ ind) (h2 : ind < s.bandBins.getD (i + 1) 0) :
    arm_cmplx_mag_squared_f32 buf stack (s.N_2 - 1) ind = re buf ind ^ 2 + im buf ind ^ 2 := by
  have hlo := (hrange _ (getD_mem s.bandBins i (by omega))).1
  have hhi := (hrange _ (getD_mem s.bandBins (i + 1) hi)).2
  have hr : 0 ≤ ind ∧ ind < s.N_2 - 1 := by omega
  simp only [arm_cmplx_mag_squared_f32, if_pos hr]

/-- The levels computed by `processAudioFD` depend on the state only through
`bandBins`, `scaleFactor`, `N_2` and the length of `total_level`, and on the
magnitudes only at the indices the bands cover. -/
theorem processAudioFD_total_level_congr (s s' : SLM) (stack stack' : ℤ → ℚ)
    (buf buf' : ℕ → ℚ)
    (hb : s'.bandBins = s.bandBins) (hsc : s'.scaleFactor = s.scaleFactor)
    (hl : s'.total_level.length = s.total_level.length)
    (hmag : ∀ i, i + 1 < s.bandBins.length → ∀ ind, s.bandBins.getD i 0 ≤ ind →
      ind < s.bandBins.getD (i + 1) 0 →
      arm_cmplx_mag_squared_f32 buf stack (s.N_2 - 1) ind =
        arm_cmplx_mag_squared_f32 buf' stack' (s'.N_2 - 1) ind) :
    (processAudioFD s stack buf).total_level = (processAudioFD s' stack' buf').total_level := by
  apply List.ext_getElem?
  intro j
  rw [processAudioFD_total_level_getElem?, processAudioFD_total_level_getElem?, hb, hsc, hl]
  by_cases h1 : j < s.total_level.length
  · rw [if_pos h1, if_pos h1]
    by_cases h2 : j < s.bandBins.length - 1
    · rw [if_pos h2, if_pos h2]
      congr 1
      exact bandSum_congr _ _ _ _ _ (hmag j (by omega))
    · rw [if_neg h2, if_neg h2]
  · rw [if_neg h1, if_neg h1]

theorem processAudioFD_eq_of_levels (s s' : SLM) (stack stack' : ℤ → ℚ) (buf buf' : ℕ → ℚ)
    (h1 : s.sample_rate_Hz = s'.sample_rate_Hz) (h2 : s.bandBins = s'.bandBins)
    (h3 : s.bandFreqs = s'.bandFreqs) (h4 : s.NFFT = s'.NFFT) (h5 : s.N_2 = s'.N_2)
    (h6 : s.Hz_per_bin = s'.Hz_per_bin) (h7 : s.scaleFactor = s'.scaleFactor)
    (hlev : (processAudioFD s stack buf).total_level =
      (processAudioFD s' stack' buf').total_level) :
    processAudioFD s stack buf = processAudioFD s' stack' buf' := by
  have hdB : (processAudioFD s stack buf).total_level_dB =
      (processAudioFD s' stack' buf').total_level_dB := by
    rw [processAudioFD_total_level_dB_eq, processAudioFD_total_level_dB_eq, hlev]
  apply SLM.ext
  · exact h1
  · exact h2
  · exact h3
  · exact hlev
  · exact hdB
  · exact h4
  · exact h5
  · exact h6
  · exact h7

/-! ## Zero-width bands (C5) -/

/-- C5: for every spectrum and every band `i` with
`bandBins[i] == bandBins[i+1]`, in a state whose `total_level` has one entry
per band, `processAudioFD` leaves `total_level[i] == 0`, line 113 is never
executed for band `i` (so its division is never evaluated for that band), and
no execution of line 113, in any band, divides by zero. -/
theorem processAudioFD_zero_width (s : SLM) (stack : ℤ → ℚ) (buf : ℕ → ℚ) (i : ℕ)
    (hlen : s.total_level.length + 1 = s.bandBins.length)
    (hi : i + 1 < s.bandBins.length)
    (heq : s.bandBins.getD i 0 = s.bandBins.getD (i + 1) 0) :
    (processAudioFD s stack buf).total_level[i]? = some 0 ∧
    (∀ a ∈ processAudioFD_accesses s stack buf, a.indB ≠ i) ∧
    (∀ a ∈ processAudioFD_accesses s stack buf, a.divisor ≠ 0) := by
  refine ⟨?_, ?_, ?_⟩
  · rw [processAudioFD_total_level_getElem?, if_pos (by omega), if_pos (by omega),
      bandSum, ← heq, loopInds_self]
    rfl
  · intro a ha hai
    rw [mem_processAudioFD_accesses] at ha
    rw [hai] at ha
    omega
  · intro a ha
    rw [mem_processAudioFD_accesses] at ha
    omega

/-- Witness of C5: breakpoints `[0, 5000, 5000, 10000]` give the boundaries
`[0, 58, 58, 256]`, whose band 1 has zero width. -/
theorem processAudioFD_zero_width_witness :
    (processAudioFD slmFlat stack7 toneSpectrum).total_level[1]? = some 0 ∧
    (∀ a ∈ processAudioFD_accesses slmFlat stack7 toneSpectrum, a.indB ≠ 1) ∧
    (∀ a ∈ processAudioFD_accesses slmFlat stack7 toneSpectrum, a.divisor ≠ 0) :=
  processAudioFD_zero_width slmFlat stack7 toneSpectrum 1 (by rfl)
    (by rw [slmFlat_bandBins]; decide) (by rw [slmFlat_bandBins]; rfl)

/-! ## Silence (C4) -/

theorem processAudioFD_zero_levels (s : SLM) (stack : ℤ → ℚ) (buf : ℕ → ℚ)
    (hrange : ∀ b ∈ s.bandBins, 0 ≤ b ∧ b ≤ s.N_2 - 1)
    (hzero : ∀ k, buf k = 0) :
    (processAudioFD s stack buf).total_level = List.replicate s.total_level.length 0 := by
  apply List.ext_getElem?
  intro j
  rw [processAudioFD_total_level_getElem?, List.getElem?_replicate]
  by_cases h1 : j < s.total_level.length
  · rw [if_pos h1, if_pos h1]
    by_cases h2 : j < s.bandBins.length - 1
    · rw [if_pos h2]
      congr 1
      rw [bandSum_congr s.bandBins s.scaleFactor _ (fun _ => 0) j]
      · exact bandSum_zero _ _ _
      · intro ind hlo hhi
        rw [orig_mag_in_range s stack buf hrange j (by omega) ind hlo hhi]
        simp [re, im, hzero]
    · rw [if_neg h2]
  · rw [if_neg h1, if_neg h1]

theorem processAudioFD_zero_dB (s : SLM) (stack : ℤ → ℚ) (buf : ℕ → ℚ)
    (hrange : ∀ b ∈ s.bandBins, 0 ≤ b ∧ b ≤ s.N_2 - 1)
    (hzero : ∀ k, buf k = 0) :
    (processAudioFD s stack buf).total_level_dB =
      List.replicate s.total_level.length F32Log.negInf := by
  rw [processAudioFD_total_level_dB_eq, processAudioFD_zero_levels s stack buf hrange hzero]
  simp [log10f, F32Log.scale]

theorem slmBands_in_range : ∀ b ∈ slmBands.bandBins, 0 ≤ b ∧ b ≤ slmBands.N_2 - 1 := by
  rw [slmBands_bandBins]
  decide

/-- C4, counterexample: in the scenario of the specification (44100 Hz,
`NFFT = 512`, breakpoints `[0, 5000, 10000]`) the all-zero spectrum leaves
`total_level = [0, 0]` and `total_level_dB = [-Inf, -Inf]`: band 0 exists and
its decibel level is not finite. -/
theorem processAudioFD_silence_not_finite :
    (processAudioFD slmBands stack7 zeroSpectrum).total_level = [0, 0] ∧
    (processAudioFD slmBands stack7 zeroSpectrum).total_level_dB =
      [F32Log.negInf, F32Log.negInf] ∧
    ¬ (∀ d ∈ (processAudioFD slmBands stack7 zeroSpectrum).total_level_dB,
        d.isFinite = true) := by
  have hl : (processAudioFD slmBands stack7 zeroSpectrum).total_level = [0, 0] :=
    processAudioFD_zero_levels slmBands stack7 zeroSpectrum slmBands_in_range (fun _ => rfl)
  have hd : (processAudioFD slmBands stack7 zeroSpectrum).total_level_dB =
      [F32Log.negInf, F32Log.negInf] :=
    processAudioFD_zero_dB slmBands stack7 zeroSpectrum slmBands_in_range (fun _ => rfl)
  refine ⟨hl, hd, ?_⟩
  rw [hd]
  decide

/-- C4, amended: for every state with `N_2 = NFFT/2 + 1`, one `total_level`
entry per band, at least one band, all boundaries in `[0, NFFT/2]`, and a
spectrum whose real and imaginary parts are all zero, `processAudioFD` yields
`total_level[i] == 0` and `total_level_dB[i] == -Inf` (the value of
`10 * log10f(0)`, which is not finite) for every band `i`: no floor is
applied. -/
theorem processAudioFD_silence (s : SLM) (stack : ℤ → ℚ) (buf : ℕ → ℚ) (i : ℕ)
    (hN2 : s.N_2 = Int.tdiv s.NFFT 2 + 1)
    (hlen : s.total_level.length + 1 = s.bandBins.length)
    (_hbands : 2 ≤ s.bandBins.length)
    (hrange : ∀ b ∈ s.bandBins, 0 ≤ b ∧ b ≤ Int.tdiv s.NFFT 2)
    (hzero : ∀ k, buf k = 0)
    (hi : i + 1 < s.bandBins.length) :
    (processAudioFD s stack buf).total_level[i]? = some 0 ∧
    (processAudioFD s stack buf).total_level_dB[i]? = some F32Log.negInf ∧
    F32Log.negInf.isFinite = false := by
  have hrange' : ∀ b ∈ s.bandBins, 0 ≤ b ∧ b ≤ s.N_2 - 1 := by
    intro b hb
    have := hrange b hb
    omega
  rw [processAudioFD_zero_levels s stack buf hrange' hzero,
    processAudioFD_zero_dB s stack buf hrange' hzero,
    List.getElem?_replicate, List.getElem?_replicate, if_pos (by omega), if_pos (by omega)]
  exact ⟨rfl, rfl, rfl⟩

/-- Witness of the amended C4: band 1 of the scenario of the specification. -/
theorem processAudioFD_silence_witness :
    (processAudioFD slmBands stack7 zeroSpectrum).total_level[1]? = some 0 ∧
    (processAudioFD slmBands stack7 zeroSpectrum).total_level_dB[1]? = some F32Log.negInf ∧
    F32Log.negInf.isFinite = false :=
  processAudioFD_silence slmBands stack7 zeroSpectrum 1 rfl (by rfl)
    (by rw [slmBands_bandBins]; decide)
    (by rw [slmBands_bandBins]; decide)
    (fun _ => rfl)
    (by rw [slmBands_bandBins]; decide)

/-! ## Idempotence (C6) -/

/-- C6: for every state with `N_2 = NFFT/2 + 1`, one `total_level` entry per
band and all boundaries in `[0, NFFT/2]`, and every spectrum `x`, applying `processAudioFD` with `x`
twice in succession (whatever the uninitialised memory holds on each call)
leaves exactly the state, hence the same `total_level` and `total_level_dB`,
as applying it once; and replacing the linear and decibel levels held before
by any others of the same shape does not change the result, so no per-band
value of an earlier block survives. -/
theorem processAudioFD_idempotent (s : SLM) (stack₁ stack₂ : ℤ → ℚ) (x : ℕ → ℚ)
    (hN2 : s.N_2 = Int.tdiv s.NFFT 2 + 1)
    (_hlen : s.total_level.length + 1 = s.bandBins.length)
    (hrange : ∀ b ∈ s.bandBins, 0 ≤ b ∧ b ≤ Int.tdiv s.NFFT 2) :
    processAudioFD (processAudioFD s stack₁ x) stack₂ x = processAudioFD s stack₁ x ∧
    ∀ (levels : List ℚ) (levels_dB : List F32Log),
      levels.length = s.total_level.length →
      processAudioFD { s with total_level := levels, total_level_dB := levels_dB } stack₂ x =
        processAudioFD s stack₁ x := by
  have hrange' : ∀ b ∈ s.bandBins, 0 ≤ b ∧ b ≤ s.N_2 - 1 := by
    intro b hb
    have := hrange b hb
    omega
  have hmag : ∀ i, i + 1 < s.bandBins.length → ∀ ind, s.bandBins.getD i 0 ≤ ind →
      ind < s.bandBins.getD (i + 1) 0 →
      arm_cmplx_mag_squared_f32 x stack₂ (s.N_2 - 1) ind =
        arm_cmplx_mag_squared_f32 x stack₁ (s.N_2 - 1) ind := by
    intro i hi ind h1 h2
    rw [orig_mag_in_range s stack₂ x hrange' i hi ind h1 h2,
      orig_mag_in_range s stack₁ x hrange' i hi ind h1 h2]
  constructor
  · refine processAudioFD_eq_of_levels (processAudioFD s stack₁ x) s stack₂ stack₁ x x
      rfl rfl rfl rfl rfl rfl rfl ?_
    exact processAudioFD_total_level_congr (processAudioFD s stack₁ x) s stack₂ stack₁ x x
      rfl rfl (processAudioFD_total_level_length s stack₁ x).symm hmag
  · intro levels levels_dB hl
    refine processAudioFD_eq_of_levels
      { s with total_level := levels, total_level_dB := levels_dB } s stack₂ stack₁ x x
      rfl rfl rfl rfl rfl rfl rfl ?_
    exact processAudioFD_total_level_congr
      { s with total_level := levels, total_level_dB := levels_dB } s stack₂ stack₁ x x
      rfl rfl hl.symm hmag

/-- Witness of C6: the scenario of the specification, after a block of
silence, processed twice with a tone. -/
theorem processAudioFD_idempotent_witness :
    processAudioFD (processAudioFD (processAudioFD slmBands stack7 zeroSpectrum)
        stack7 toneSpectrum) stack9 toneSpectrum =
      processAudioFD (processAudioFD slmBands stack7 zeroSpectrum) stack7 toneSpectrum :=
  (processAudioFD_idempotent (processAudioFD slmBands stack7 zeroSpectrum) stack7 stack9
    toneSpectrum rfl (processAudioFD_shape slmBands stack7 zeroSpectrum (by rfl)) (by
      show ∀ b ∈ slmBands.bandBins, 0 ≤ b ∧ b ≤ Int.tdiv 512 2
      rw [slmBands_bandBins]
      decide)).1

/-! ## Indices read from `orig_mag` (C10) -/

theorem processAudioFD_orig_mag_eq (s : SLM) (stack : ℤ → ℚ) (buf : ℕ → ℚ) :
    processAudioFD_orig_mag s stack buf = arm_cmplx_mag_squared_f32 buf stack (s.N_2 - 1) := rfl

/-- C10: `processAudioFD` computes magnitude-squared only for the `N_2 - 1`
bins `0 .. NFFT/2 - 1`: when it returns, its array `orig_mag` holds
`re^2 + im^2` at those indices and, at every other index, the Nyquist entry
`orig_mag[N_2 - 1]` included, what the memory held on entry.  In a state with
`N_2 = NFFT/2 + 1` and one `total_level` entry per band whose `bandBins` is
non-decreasing, has at least 2 entries and has all entries in `[0, NFFT/2]`,
every index at which `orig_mag` is read satisfies `0 ≤ ind < N_2 - 1` and
holds a computed magnitude, and the resulting state depends neither on the
uninitialised memory nor on the spectrum from the Nyquist bin on (buffer
entries `2 * (N_2 - 1)` and above). -/
theorem processAudioFD_reads_in_range (s : SLM) (stack stack' : ℤ → ℚ) (buf buf' : ℕ → ℚ)
    (hN2 : s.N_2 = Int.tdiv s.NFFT 2 + 1)
    (_hshape : s.total_level.length + 1 = s.bandBins.length)
    (_hlen : 2 ≤ s.bandBins.length)
    (_hsorted : s.bandBins.Pairwise (· ≤ ·))
    (hrange : ∀ b ∈ s.bandBins, 0 ≤ b ∧ b ≤ Int.tdiv s.NFFT 2)
    (hagree : ∀ k, k < 2 * (s.N_2 - 1).toNat → buf k = buf' k) :
    (∀ ind, processAudioFD_orig_mag s stack buf ind =
      if 0 ≤ ind ∧ ind < Int.tdiv s.NFFT 2 then re buf ind ^ 2 + im buf ind ^ 2
      else stack ind) ∧
    processAudioFD_orig_mag s stack buf (s.N_2 - 1) = stack (s.N_2 - 1) ∧
    (∀ a ∈ processAudioFD_accesses s stack buf,
      0 ≤ a.ind ∧ a.ind < s.N_2 - 1 ∧
      processAudioFD_orig_mag s stack buf a.ind = re buf a.ind ^ 2 + im buf a.ind ^ 2) ∧
    processAudioFD s stack buf = processAudioFD s stack' buf' := by
  have hrange' : ∀ b ∈ s.bandBins, 0 ≤ b ∧ b ≤ s.N_2 - 1 := by
    intro b hb
    have := hrange b hb
    omega
  have hhalf : s.N_2 - 1 = Int.tdiv s.NFFT 2 := by omega
  refine ⟨?_, ?_, ?_, ?_⟩
  · intro ind
    rw [processAudioFD_orig_mag_eq, hhalf]
    rfl
  · rw [processAudioFD_orig_mag_eq]
    simp [arm_cmplx_mag_squared_f32]
  · intro a ha
    rw [mem_processAudioFD_accesses] at ha
    have hlo := (hrange' _ (getD_mem s.bandBins a.indB (by omega))).1
    have hhi := (hrange' _ (getD_mem s.bandBins (a.indB + 1) ha.1)).2
    refine ⟨by omega, by omega, ?_⟩
    rw [processAudioFD_orig_mag_eq]
    exact orig_mag_in_range s stack buf hrange' a.indB ha.1 a.ind ha.2.1 ha.2.2.1
  · refine processAudioFD_eq_of_levels s s stack stack' buf buf'
      rfl rfl rfl rfl rfl rfl rfl ?_
    refine processAudioFD_total_level_congr s s stack stack' buf buf' rfl rfl rfl ?_
    intro i hi ind h1 h2
    have hlo := (hrange' _ (getD_mem s.bandBins i (by omega))).1
    have hhi := (hrange' _ (getD_mem s.bandBins (i + 1) hi)).2
    rw [orig_mag_in_range s stack buf hrange' i hi ind h1 h2,
      orig_mag_in_range s stack' buf' hrange' i hi ind h1 h2]
    have e1 : 2 * ind.toNat < 2 * (s.N_2 - 1).toNat := by omega
    have e2 : 2 * ind.toNat + 1 < 2 * (s.N_2 - 1).toNat := by omega
    simp only [re, im, hagree _ e1, hagree _ e2]

/-- Witness of C10: the scenario of the specification, with two spectra
that differ in the Nyquist bin and two different memory contents. -/
theorem processAudioFD_reads_in_range_witness :
    processAudioFD_orig_mag slmBands stack7 toneSpectrum (slmBands.N_2 - 1) =
      stack7 (slmBands.N_2 - 1) ∧
    (∀ a ∈ processAudioFD_accesses slmBands stack7 toneSpectrum,
      0 ≤ a.ind ∧ a.ind < slmBands.N_2 - 1 ∧
      processAudioFD_orig_mag slmBands stack7 toneSpectrum a.ind =
        re toneSpectrum a.ind ^ 2 + im toneSpectrum a.ind ^ 2) ∧
    processAudioFD slmBands stack7 toneSpectrum = processAudioFD slmBands stack9 toneNyquist :=
  (processAudioFD_reads_in_range slmBands stack7 stack9 toneSpectrum toneNyquist rfl
    (by rfl)
    (by rw [slmBands_bandBins]; decide)
    (by rw [slmBands_bandBins]; decide)
    (by rw [slmBands_bandBins]; decide)
    (by
      intro k hk
      have hk' : k < 512 := hk
      have h512 : k ≠ 512 := by omega
      simp [toneSpectrum, toneNyquist, h512])).2

end AudioUltraSLM_FD_F32
